import Mathlib

/-!
Verification development for the superanki digest pipeline.

The TypeScript source is shallowly embedded: JS strings are modelled as
`String` where they are only compared for equality, and as `List Char`
where the code inspects their characters (the digest parser and the name
sanitizers).  Promise-returning fallible operations are modelled with
`Except String`; `new Date()` timestamps are passed in as explicit `Nat`
parameters.  SQLite statement semantics (`INSERT OR IGNORE`,
`ON CONFLICT .. DO UPDATE`, `BEGIN`/`COMMIT`/`ROLLBACK`) and the remote
AnkiConnect actions are external systems; their documented behaviour is
modelled by explicit state-passing functions, and unexpected storage or
network failures are injected through failure oracles.
-/

namespace SuperAnki

/-! ## Shared character-level utilities -/

/-- Whitespace test used to model the JS `String.prototype.trim` and the
`\s` character class (the JS set also has exotic members such as NBSP,
which no claim depends on). -/
def isWsChar (c : Char) : Bool := c.isWhitespace

/-- Model of JS `trim()`: drop whitespace from both ends. -/
def jsTrim (l : List Char) : List Char :=
  ((l.dropWhile isWsChar).reverse.dropWhile isWsChar).reverse

/-- Substring test over char lists: model of JS `String.prototype.includes`. -/
def isSubL (p : List Char) : List Char → Bool
  | [] => p.isEmpty
  | c :: rest => p.isPrefixOf (c :: rest) || isSubL p rest

/-! ## Digest parser (src/src/core/services/DigestParser.ts)

Lines of the digest text are modelled as `List Char`.  `parse` follows
`SupernoteDigestParser.parse` statement by statement; totality of the Lean
function witnesses that the parser never throws. -/

/-- `DigestEntry` (src/src/core/entities, second document): word,
bookFilename, sourceFile.  The `createdAt : Date` field defaults to
`new Date()` and plays no role in parsing, so it is left to the store
model, which timestamps rows explicitly. -/
structure DigestEntry where
  word : List Char
  bookFilename : List Char
  sourceFile : List Char
deriving DecidableEq, Repr

/-- `DigestEntry.create`: trims word and book filename. -/
def DigestEntry.create (word bookFilename sourceFile : List Char) : DigestEntry :=
  ⟨jsTrim word, jsTrim bookFilename, sourceFile⟩

/-- `isBookReference`: `line.includes('[') && line.includes('](') && line.includes(')')`. -/
def isBookReference (line : List Char) : Bool :=
  isSubL ['['] line && isSubL [']', '('] line && isSubL [')'] line

/-- One attempt of the regex `\[([^\]]+)\]\([^)]+\)` at a fixed start: `rest`
is the text following an opening `[`.  The greedy `[^\]]+` group can only end
at the first `]`, so no backtracking alternatives exist at a given start. -/
def tryLinkAt (rest : List Char) : Option (List Char) :=
  let g := rest.takeWhile (fun c => !(c == ']'))
  let after := rest.drop g.length
  if g.isEmpty then none
  else
    match after with
    | ']' :: '(' :: rest2 =>
      let t := rest2.takeWhile (fun c => !(c == ')'))
      let after2 := rest2.drop t.length
      if t.isEmpty then none
      else
        match after2 with
        | ')' :: _ => some g
        | _ => none
    | _ => none

/-- Leftmost match of `line.match(/\[([^\]]+)\]\([^)]+\)/)`, returning
capture group 1. -/
def linkGroup : List Char → Option (List Char)
  | [] => none
  | '[' :: rest =>
    match tryLinkAt rest with
    | some g => some g
    | none => linkGroup rest
  | _ :: rest => linkGroup rest

/-- `extractBookFilename`: group 1 of the first link match, trimmed (the
group is nonempty by `[^\]]+`, so the JS guard `match[1]` always passes). -/
def extractBookFilename (line : List Char) : Option (List Char) :=
  match linkGroup line with
  | some g => some (jsTrim g)
  | none => none

/-- JS `content.split('\n')` (always returns at least one piece). -/
def splitNl : List Char → List (List Char)
  | [] => [[]]
  | c :: rest =>
    if c == '\n' then [] :: splitNl rest
    else
      match splitNl rest with
      | l :: ls => (c :: l) :: ls
      | [] => [[c]]

/-- The parser loop over the (pre-filtered) lines.  `lines[i]` is the head,
`lines[i + 1]` the head of the tail; the JS loop advances one line per
iteration, so a consumed reference line is revisited (and skipped as a
reference) on the next iteration. -/
def parseGo (sourceFile : List Char) : List (List Char) → List DigestEntry
  | [] => []
  | line :: rest =>
    let t := jsTrim line
    if t.isEmpty then parseGo sourceFile rest
    else if isBookReference t then parseGo sourceFile rest
    else
      match rest.head? with
      | none => []
      | some next =>
        if isBookReference next then
          match extractBookFilename next with
          | some b =>
            if b.isEmpty then parseGo sourceFile rest
            else DigestEntry.create t b sourceFile :: parseGo sourceFile rest
          | none => parseGo sourceFile rest
        else parseGo sourceFile rest

/-- `SupernoteDigestParser.parse`: split on newlines, drop blank lines,
then run the pairing loop. -/
def parse (content sourceFile : List Char) : List DigestEntry :=
  parseGo sourceFile ((splitNl content).filter (fun l => !(jsTrim l).isEmpty))

/-! ### The spec's reference-line predicate (for claim C4)

The spec says a line is a reference line iff it contains `[`, `](` and `)`
"in that relative order".  `occursAt l p i` says pattern `p` occurs in `l`
at position `i`; `SpecRefLine` is the spec's ordered-occurrence reading. -/

/-- `p` occurs in `l` starting at index `i`. -/
def occursAt (l p : List Char) (i : Nat) : Bool := p.isPrefixOf (l.drop i)

/-- The spec's reading of `isBookReference`: the three substrings occur at
positions `i < j` and `j + 2 ≤ k` (i.e. in that relative order). -/
def SpecRefLine (l : List Char) : Prop :=
  ∃ i j k : Fin l.length,
    occursAt l ['['] i = true ∧ occursAt l [']', '('] j = true ∧
    occursAt l [')'] k = true ∧ (i : Nat) < (j : Nat) ∧ (j : Nat) + 2 ≤ (k : Nat)

instance (l : List Char) : Decidable (SpecRefLine l) := by
  unfold SpecRefLine
  infer_instance

/-! ### Valid line pairs and text assembly (for claim C3) -/

/-- A valid headword line: nonblank after trimming, not itself a book
reference, and (being a single line) free of newlines. -/
def validHeadword (w : List Char) : Bool :=
  !(jsTrim w).isEmpty && !isBookReference (jsTrim w) && !w.contains '\n'

/-- A valid reference line: recognized by `isBookReference`, with a link
whose bracketed display text is nonblank after trimming, and free of
newlines. -/
def validRef (r : List Char) : Bool :=
  isBookReference r &&
    (match extractBookFilename r with
     | some b => !b.isEmpty
     | none => false) &&
    !r.contains '\n'

/-- The digest text's line sequence for a list of (headword, reference)
pairs. -/
def interleave : List (List Char × List Char) → List (List Char)
  | [] => []
  | p :: rest => p.1 :: p.2 :: interleave rest

/-- Join lines with newline separators (inverse of `splitNl`). -/
def intercalateNl : List (List Char) → List Char
  | [] => []
  | [l] => l
  | l :: l' :: rest => l ++ '\n' :: intercalateNl (l' :: rest)

/-! ## Digest entry store (src/src/adapters/database/SQLiteDigestRepository.ts)

The `digest_entries` table has `word TEXT PRIMARY KEY`; a store is a list
of rows.  `INSERT OR IGNORE` semantics (insert unless the key exists,
reporting `changes`) and `BEGIN`/`COMMIT`/`ROLLBACK` (work on an
uncommitted copy; publish on commit; discard and reject on error) model
the external SQLite engine.  Unexpected storage failures — anything other
than the expected duplicate-key path, which `OR IGNORE` absorbs — are
injected by a `dfail` oracle. -/

/-- A row of `digest_entries`. -/
structure DRow where
  word : String
  book_filename : String
  source_file : String
  created_at : Nat
deriving DecidableEq, Repr

/-- `word = ?` existence test (the PRIMARY KEY probe). -/
def wordExists (st : List DRow) (w : String) : Bool :=
  st.any (fun r => r.word == w)

/-- `SELECT .. WHERE word = ?` via `db.get`: the first matching row. -/
def findByWord (st : List DRow) (w : String) : Option DRow :=
  st.find? (fun r => r.word == w)

/-- One `INSERT OR IGNORE` statement on `digest_entries`: no-op when the
word exists, else append; the boolean is `this.changes > 0`. -/
def insertIgnoreD (st : List DRow) (e : DRow) : List DRow × Bool :=
  if wordExists st e.word then (st, false) else (st ++ [e], true)

/-- `SQLiteDigestRepository.upsert`: a single `INSERT OR IGNORE`, resolving
to whether a row was inserted. -/
def upsert (st : List DRow) (e : DRow) : List DRow × Bool :=
  insertIgnoreD st e

/-- The statement loop of `saveManyIfNew` inside the transaction: `working`
is the uncommitted state, `inserted` counts statements with `changes > 0`.
A `dfail`-injected statement error rejects (the caller then rolls back);
reaching the end commits. -/
def saveManyGo (dfail : DRow → Option String) :
    List DRow → Nat → List DRow → Except String (List DRow × Nat)
  | working, inserted, [] => .ok (working, inserted)
  | working, inserted, e :: rest =>
    match dfail e with
    | some msg => .error msg
    | none =>
      let (w, b) := insertIgnoreD working e
      saveManyGo dfail w (inserted + if b then 1 else 0) rest

/-- `SQLiteDigestRepository.saveManyIfNew` with transaction semantics: on
success the worked state is committed with the inserted count; on a
statement error the transaction is rolled back, so the committed state is
the original one, and the promise rejects. -/
def saveManyIfNew (dfail : DRow → Option String) (st : List DRow)
    (entries : List DRow) : List DRow × Except String Nat :=
  match saveManyGo dfail st 0 entries with
  | .ok (st', n) => (st', .ok n)
  | .error msg => (st, .error msg)

/-- Word-uniqueness invariant of the `digest_entries` table
(`word TEXT PRIMARY KEY`). -/
def UniqueWords (st : List DRow) : Prop :=
  st.Pairwise (fun a b => a.word ≠ b.word)

/-! ## Enriched card store (SQLiteEnrichedCardRepository)

The `enriched_cards` table has `UNIQUE(word, source_title)`; content
columns are canonical_answer, canonical_answer_alt (nullable),
part_of_speech, definition, example_sentence, hint, plus created_at and
updated_at timestamps. -/

/-- A row of `enriched_cards`. -/
structure ERow where
  word : String
  source_title : String
  canonical_answer : String
  canonical_answer_alt : Option String
  part_of_speech : String
  definition : String
  example_sentence : String
  hint : String
  created_at : Nat
  updated_at : Nat
deriving DecidableEq, Repr

/-- The `(word, source_title)` unique-key probe. -/
def keyMatches (r : ERow) (w s : String) : Bool :=
  r.word == w && r.source_title == s

/-- `WHERE word = ? AND source_title = ?` existence (the repository's
`exists` via `findByWordAndSource`). -/
def existsKeyE (st : List ERow) (w s : String) : Bool :=
  st.any (fun r => keyMatches r w s)

/-- The `DO UPDATE SET` clause of the upsert: replace the six content
columns and updated_at, keep everything else. -/
def contentReplace (r c : ERow) : ERow :=
  { r with canonical_answer := c.canonical_answer,
           canonical_answer_alt := c.canonical_answer_alt,
           part_of_speech := c.part_of_speech,
           definition := c.definition,
           example_sentence := c.example_sentence,
           hint := c.hint,
           updated_at := c.updated_at }

/-- `SQLiteEnrichedCardRepository.upsert`: `INSERT .. ON CONFLICT(word,
source_title) DO UPDATE SET ..`; both paths report `changes > 0`. -/
def upsertE (st : List ERow) (c : ERow) : List ERow × Bool :=
  if existsKeyE st c.word c.source_title then
    (st.map (fun r => if keyMatches r c.word c.source_title then
        contentReplace r c else r), true)
  else (st ++ [c], true)

/-- One `INSERT OR IGNORE` statement on `enriched_cards`. -/
def insertIgnoreE (st : List ERow) (c : ERow) : List ERow × Bool :=
  if existsKeyE st c.word c.source_title then (st, false) else (st ++ [c], true)

/-- The statement loop of the enriched-card `saveManyIfNew` inside its
transaction (same shape as the digest store's). -/
def saveManyGoE (efail : ERow → Option String) :
    List ERow → Nat → List ERow → Except String (List ERow × Nat)
  | working, inserted, [] => .ok (working, inserted)
  | working, inserted, c :: rest =>
    match efail c with
    | some msg => .error msg
    | none =>
      let (w, b) := insertIgnoreE working c
      saveManyGoE efail w (inserted + if b then 1 else 0) rest

/-- Key-uniqueness invariant of `enriched_cards`
(`UNIQUE(word, source_title)`). -/
def UniqueKeysE (st : List ERow) : Prop :=
  st.Pairwise (fun a b => a.word ≠ b.word ∨ a.source_title ≠ b.source_title)

/-! ## Enrichment orchestrator (PushToAnkiUseCase.ts, second document:
`EnrichMissingUseCase.executeForEntries` with `enrichWithBackoff`)

The provider (`this.enricher.enrich`) is an abstract function from a word
batch and source title to either a card list or an error message; the
orchestrator recognizes truncation by `msg.includes('max output tokens')`.
To keep every definition structurally recursive (hence executable by the
kernel), the backoff recursion carries an explicit fuel that the wrapper
fixes to the batch length; each split strictly shrinks the batch, so with
that fuel the recursion is exactly the source's. -/

/-- A card draft returned by the provider and passed to
`new EnrichedCard(...)`. -/
structure Card where
  word : String
  canonicalAnswer : String
  canonicalAnswerAlt : Option String
  partOfSpeech : String
  definition : String
  exampleSentence : String
  sourceTitle : String
  hint : String
deriving DecidableEq, Repr

/-- `new EnrichedCard(c.word, .., new Date(), new Date())` as a table row;
`now` stands for the `new Date()` timestamps. -/
def rowOfCard (now : Nat) (c : Card) : ERow :=
  ⟨c.word, c.sourceTitle, c.canonicalAnswer, c.canonicalAnswerAlt,
   c.partOfSpeech, c.definition, c.exampleSentence, c.hint, now, now⟩

/-- `(err?.message || '').toString().includes('max output tokens')`. -/
def tokenLimitHit (msg : String) : Bool :=
  isSubL "max output tokens".toList msg.toList

/-- The recursion of `enrichWithBackoff`: call the provider; on a
token-limit error with more than one word, split at `mid = ⌊n/2⌋` into
`slice(0, mid)` and `slice(mid)` and retry the left half first.  The
second component logs the batch size of every provider call, in order.
The fuel-0 case takes the no-split path; the wrapper's fuel equals the
batch length, which the splits never exhaust. -/
def ebGo (enr : List String → Except String (List Card)) :
    Nat → List String → Except String (List Card) × List Nat
  | 0, batchWords => (enr batchWords, [batchWords.length])
  | fuel + 1, batchWords =>
    match enr batchWords with
    | .ok cards => (.ok cards, [batchWords.length])
    | .error msg =>
      if tokenLimitHit msg && batchWords.length > 1 then
        let mid := batchWords.length / 2
        match ebGo enr fuel (batchWords.take mid) with
        | (.error e, llog) => (.error e, batchWords.length :: llog)
        | (.ok left, llog) =>
          match ebGo enr fuel (batchWords.drop mid) with
          | (.error e, rlog) =>
            (.error e, batchWords.length :: (llog ++ rlog))
          | (.ok right, rlog) =>
            (.ok (left ++ right), batchWords.length :: (llog ++ rlog))
      else (.error msg, [batchWords.length])

/-- `enrichWithBackoff` of `EnrichMissingUseCase` (the sequential version
embedded in PushToAnkiUseCase.ts), instrumented with the provider-call
log. -/
def enrichWithBackoff (enr : List String → Except String (List Card))
    (batchWords : List String) : Except String (List Card) × List Nat :=
  ebGo enr batchWords.length batchWords

/-- The `for (let i = 0; i < missing.length; i += batchSize)` slicing.
Fuel is the list length; config validation guarantees `batchSize ≥ 1`,
under which the fuel is never exhausted. -/
def chunksGo (n : Nat) : Nat → List String → List (List String)
  | _, [] => []
  | 0, l => [l]
  | fuel + 1, l => l.take n :: chunksGo n fuel (l.drop n)

def chunks (n : Nat) (l : List String) : List (List String) :=
  chunksGo n l.length l

/-- A parsed digest entry as consumed by `executeForEntries` (its word and
bookFilename; the other fields play no role there). -/
structure DigestEntryS where
  word : String
  bookFilename : String
deriving DecidableEq, Repr

/-- One step of building the `bySource` map: JS `Map` and `Set` preserve
insertion order and deduplicate words per source. -/
def addWord (acc : List (String × List String)) (src w : String) :
    List (String × List String) :=
  match acc with
  | [] => [(src, [w])]
  | (s, ws) :: rest =>
    if s == src then (s, if ws.contains w then ws else ws ++ [w]) :: rest
    else (s, ws) :: addWord rest src w

/-- Group unique words by source title (bookFilename), in insertion
order. -/
def groupBySource (entries : List DigestEntryS) :
    List (String × List String) :=
  entries.foldl (fun acc e => addWord acc e.bookFilename e.word) []

/-- The sequential per-batch loop of `executeForEntries` for one source:
backoff-enrich each batch, persist via the enriched-card `saveManyIfNew`
(whose unexpected failures come from `efail`), accumulate `created`; any
error aborts the whole call.  The `List Nat` is the provider-call log. -/
def runBatches (enr : List String → Except String (List Card))
    (efail : ERow → Option String) (now : Nat) :
    List ERow → Nat → List Nat → List (List String) →
      Except String (List ERow × Nat) × List Nat
  | st, created, log, [] => (.ok (st, created), log)
  | st, created, log, batch :: bs =>
    match enrichWithBackoff enr batch with
    | (.error msg, l) => (.error msg, log ++ l)
    | (.ok cards, l) =>
      match saveManyGoE efail st 0 (cards.map (rowOfCard now)) with
      | .error msg => (.error msg, log ++ l)
      | .ok (st', inserted) =>
        runBatches enr efail now st' (created + inserted) (log ++ l) bs

/-- The per-source loop of `executeForEntries`: filter to words without an
existing (word, source) card, count them into `requested`, slice into
batches and run them sequentially. -/
def runSources (enrich : List String → String → Except String (List Card))
    (efail : ERow → Option String) (batchSize now : Nat) :
    List ERow → Nat → Nat → List Nat → List (String × List String) →
      Except String (List ERow × Nat × Nat) × List Nat
  | st, requested, created, log, [] => (.ok (st, requested, created), log)
  | st, requested, created, log, (sourceTitle, words) :: rest =>
    let missing := words.filter (fun w => !(existsKeyE st w sourceTitle))
    if missing.isEmpty then
      runSources enrich efail batchSize now st requested created log rest
    else
      match runBatches (fun ws => enrich ws sourceTitle) efail now st 0 log
          (chunks batchSize missing) with
      | (.error msg, log') => (.error msg, log')
      | (.ok (st', createdHere), log') =>
        runSources enrich efail batchSize now st'
          (requested + missing.length) (created + createdHere) log' rest

/-- `EnrichMissingUseCase.executeForEntries`: group unique words by source
and process sources sequentially, returning the final store, the counters
`{requested, created}` and the provider-call log. -/
def executeForEntries (enrich : List String → String → Except String (List Card))
    (efail : ERow → Option String) (batchSize now : Nat) (st : List ERow)
    (entries : List DigestEntryS) :
    Except String (List ERow × Nat × Nat) × List Nat :=
  runSources enrich efail batchSize now st 0 0 [] (groupBySource entries)

/-- Projection of an `executeForEntries` outcome to `(requested, created)`. -/
def reqCreatedOf (x : Except String (List ERow × Nat × Nat) × List Nat) :
    Option (Nat × Nat) :=
  match x.1 with
  | .ok (_, r, c) => some (r, c)
  | .error _ => none

/-! ## Deck reconciler (src/src/application/PushToAnkiUseCase.ts, first
document: `PushToAnkiUseCase.pushForSources`)

The AnkiConnect boundary is an external HTTP service; its actions are
modelled by a state machine over `AnkiState` (decks, notes, an id
allocator and a modification clock), with call failures injected through
an `afail` oracle keyed by the action.  `findNotes` queries are modelled
semantically by their three components (deck, note type, headword field
value) rather than by the query string the code assembles.  Every
attempted call is logged in order. -/

/-- JS `row.word.trim()` at the `String` level. -/
def jsTrimS (s : String) : String := String.mk (jsTrim s.toList)

/-- `.replace(/::/g, ':')`: global left-to-right non-overlapping. -/
def squashColons : List Char → List Char
  | ':' :: ':' :: rest => ':' :: squashColons rest
  | c :: rest => c :: squashColons rest
  | [] => []

/-- `.replace(/[\\/]/g, ' ')`. -/
def slashToSpace (l : List Char) : List Char :=
  l.map (fun c => if c == '\\' || c == '/' then ' ' else c)

/-- `.replace(/\s+/g, sep)`: collapse each whitespace run to one `sep`;
the boolean records whether the previous char was whitespace. -/
def collapseWsWith (sep : Char) : Bool → List Char → List Char
  | _, [] => []
  | prevWs, c :: rest =>
    if isWsChar c then
      if prevWs then collapseWsWith sep true rest
      else sep :: collapseWsWith sep true rest
    else c :: collapseWsWith sep false rest

/-- `sanitizeDeckComponent`: `String(name || 'Unknown')`, squash `::`,
path separators to spaces, collapse whitespace, trim. -/
def sanitizeDeckComponent (name : String) : String :=
  let base := if name == "" then "Unknown" else name
  String.mk (jsTrim (collapseWsWith ' ' false (slashToSpace
    (squashColons base.toList))))

/-- The character class `[a-z0-9_:-]` of `slugifyTag`. -/
def slugChar (c : Char) : Bool :=
  ('a' ≤ c && c ≤ 'z') || ('0' ≤ c && c ≤ '9') ||
    c == '_' || c == ':' || c == '-'

/-- `slugifyTag`: lower-case, whitespace runs to `_`, strip the rest,
first 63 chars. -/
def slugifyTag (value : String) : String :=
  String.mk (((collapseWsWith '_' false
    (value.toList.map Char.toLower)).filter slugChar).take 63)

/-- The `config.anki` values `pushForSources` reads.  `deckPref` models
`config.anki.deckPrefix`. -/
structure AnkiCfg where
  autoPush : Bool
  deckPref : String
  model : String
  fieldWord : String
  fieldCanonicalAnswer : String
  fieldCanonicalAnswerAlt : String
  fieldPartOfSpeech : String
  fieldDefinition : String
  fieldExampleSentence : String
  fieldSourceTitle : String
  fieldHint : String
deriving DecidableEq, Repr

/-- A remote note as AnkiConnect reports it (`notesInfo`): id, deck, note
type, field values, tags, modification timestamp. -/
structure Note where
  noteId : Nat
  deck : String
  model : String
  fields : List (String × String)
  tags : List String
  mod : Nat
deriving DecidableEq, Repr

/-- The remote collection: decks, notes, a fresh-id allocator and a
modification clock. -/
structure AnkiState where
  decks : List String
  notes : List Note
  nextId : Nat
  clock : Nat
deriving DecidableEq, Repr

/-- The AnkiConnect actions `pushForSources` issues, as logged. -/
inductive AAct where
  | createDeck (deck : String)
  | findNotes (deck model front : String)
  | notesInfo (ids : List Nat)
  | updateNoteFields (id : Nat) (fields : List (String × String))
  | updateNoteTags (id : Nat) (tags : List String)
  | addNote (deck model front : String)
  | sync
deriving DecidableEq, Repr

def lookupField (fields : List (String × String)) (k : String) :
    Option String :=
  (fields.find? (fun p => p.1 == k)).map (fun p => p.2)

/-- Whether a note matches the query `deck:".." note:".." FIELD_WORD:".."`
(exact values). -/
def noteMatches (cfg : AnkiCfg) (deck front : String) (n : Note) : Bool :=
  n.deck == deck && n.model == cfg.model &&
    ((lookupField n.fields cfg.fieldWord).getD "" == front)

/-- `findNotes` semantics: ids of the matching notes. -/
def findNotesSem (cfg : AnkiCfg) (st : AnkiState) (deck front : String) :
    List Nat :=
  (st.notes.filter (noteMatches cfg deck front)).map (fun n => n.noteId)

/-- `notesInfo` semantics. -/
def notesInfoSem (st : AnkiState) (ids : List Nat) : List Note :=
  ids.filterMap (fun i => st.notes.find? (fun n => n.noteId == i))

/-- Stable insertion for the descending `(b.mod || 0) - (a.mod || 0)`
sort. -/
def insertByMod (x : Note) : List Note → List Note
  | [] => [x]
  | y :: ys => if x.mod > y.mod then x :: y :: ys else y :: insertByMod x ys

def sortByModDesc : List Note → List Note
  | [] => []
  | x :: xs => insertByMod x (sortByModDesc xs)

/-- Stable insertion for `ORDER BY updated_at DESC`. -/
def insertByUpd (x : ERow) : List ERow → List ERow
  | [] => [x]
  | y :: ys =>
    if x.updated_at > y.updated_at then x :: y :: ys else y :: insertByUpd x ys

def sortByUpdDesc : List ERow → List ERow
  | [] => []
  | x :: xs => insertByUpd x (sortByUpdDesc xs)

/-- `addNote` semantics with `allowDuplicate: false` scoped to the deck:
rejected (null result) when a same-type note with the same headword field
already exists in the deck, else created with fresh id and current
clock. -/
def addNoteSem (cfg : AnkiCfg) (st : AnkiState) (deck : String)
    (fields : List (String × String)) (tags : List String) :
    AnkiState × Option Nat :=
  if st.notes.any (fun n => n.deck == deck && n.model == cfg.model &&
      ((lookupField n.fields cfg.fieldWord).getD "" ==
        (lookupField fields cfg.fieldWord).getD "")) then
    (st, none)
  else
    ({ st with
        notes := st.notes ++
          [⟨st.nextId, deck, cfg.model, fields, tags, st.clock⟩],
        nextId := st.nextId + 1, clock := st.clock + 1 }, some st.nextId)

def setField (fields : List (String × String)) (k v : String) :
    List (String × String) :=
  if fields.any (fun p => p.1 == k) then
    fields.map (fun p => if p.1 == k then (k, v) else p)
  else fields ++ [(k, v)]

/-- `updateNoteFields` semantics: overwrite the supplied fields of the
note, bump its modification time. -/
def updateFieldsSem (st : AnkiState) (id : Nat)
    (flds : List (String × String)) : AnkiState :=
  { st with
    notes := st.notes.map (fun n => if n.noteId == id then
      { n with fields := flds.foldl (fun fs kv => setField fs kv.1 kv.2) n.fields,
               mod := st.clock } else n),
    clock := st.clock + 1 }

/-- `updateNoteTags` semantics: replace the note's tags. -/
def updateTagsSem (st : AnkiState) (id : Nat) (tags : List String) :
    AnkiState :=
  { st with
    notes := st.notes.map (fun n => if n.noteId == id then
      { n with tags := tags, mod := st.clock } else n),
    clock := st.clock + 1 }

/-- `createDeck` semantics (idempotent). -/
def createDeckSem (st : AnkiState) (deck : String) : AnkiState :=
  if st.decks.contains deck then st
  else { st with decks := st.decks ++ [deck] }

/-- `Array.from(new Set(xs))`: first-occurrence deduplication. -/
def dedupGo : List String → List String → List String
  | _, [] => []
  | seen, x :: rest =>
    if seen.contains x then dedupGo seen rest
    else x :: dedupGo (x :: seen) rest

/-- The `newNote.fields` object, in insertion order. -/
def desiredFields (cfg : AnkiCfg) (sourceTitle front : String) (row : ERow) :
    List (String × String) :=
  [(cfg.fieldWord, front),
   (cfg.fieldCanonicalAnswer, row.canonical_answer),
   (cfg.fieldCanonicalAnswerAlt, row.canonical_answer_alt.getD ""),
   (cfg.fieldPartOfSpeech, row.part_of_speech),
   (cfg.fieldDefinition, row.definition),
   (cfg.fieldExampleSentence, row.example_sentence),
   (cfg.fieldSourceTitle, sourceTitle),
   (cfg.fieldHint, row.hint)]

/-- The changed-fields diff: desired entries whose current value
(`currentFields[k]?.value ?? ''`) differs. -/
def diffFields (desired current : List (String × String)) :
    List (String × String) :=
  desired.filter (fun kv => !(((lookupField current kv.1).getD "") == kv.2))

/-- `newNote.tags`. -/
def newNoteTags (sourceTitle : String) : List String :=
  ["superanki", "source:" ++ slugifyTag sourceTitle]

/-- How the per-card flow continues after the search/fetch phase. -/
inductive CardRoute where
  | create
  | skipCard
  | useNote (n : Note)
deriving DecidableEq, Repr

/-- The per-card loop of `pushForSources` for one source.  A `findNotes`
failure is caught (noteIds stays `[]`, falling through to `addNote`); a
`notesInfo` failure is caught with `continue` (the card is skipped); an
`addNote`, `updateNoteFields` or `updateNoteTags` failure rejects and
aborts the run.  The field update is skipped when no field differs; tags
are always resubmitted as the deduplicated union; `updated` counts every
card with a usable matching note, `created` counts non-null `addNote`
results. -/
def pushRows (cfg : AnkiCfg) (afail : AAct → Option String)
    (deckName sourceTitle : String) :
    AnkiState → List AAct → Nat → Nat → List ERow →
      Except String (AnkiState × List AAct × Nat × Nat)
  | st, log, created, updated, [] => .ok (st, log, created, updated)
  | st, log, created, updated, row :: rest =>
    let front := jsTrimS row.word
    if front == "" then
      pushRows cfg afail deckName sourceTitle st log created updated rest
    else
      let aFind := AAct.findNotes deckName cfg.model front
      let noteIds : List Nat :=
        match afail aFind with
        | some _ => []
        | none => findNotesSem cfg st deckName front
      let log1 := log ++ [aFind]
      let desired := desiredFields cfg sourceTitle front row
      let routed : CardRoute × List AAct :=
        if noteIds.isEmpty then (CardRoute.create, log1)
        else
          let aInfo := AAct.notesInfo noteIds
          match afail aInfo with
          | some _ => (CardRoute.skipCard, log1 ++ [aInfo])
          | none =>
            match sortByModDesc (notesInfoSem st noteIds) with
            | [] => (CardRoute.create, log1 ++ [aInfo])
            | newest :: _ =>
              if newest.noteId == 0 then (CardRoute.create, log1 ++ [aInfo])
              else (CardRoute.useNote newest, log1 ++ [aInfo])
      match routed with
      | (CardRoute.skipCard, log2) =>
        pushRows cfg afail deckName sourceTitle st log2 created updated rest
      | (CardRoute.create, log2) =>
        let aAdd := AAct.addNote deckName cfg.model front
        match afail aAdd with
        | some msg => .error msg
        | none =>
          match addNoteSem cfg st deckName desired (newNoteTags sourceTitle) with
          | (st1, added) =>
            pushRows cfg afail deckName sourceTitle st1 (log2 ++ [aAdd])
              (created +
                match added with
                | some i => if i == 0 then 0 else 1
                | none => 0)
              updated rest
      | (CardRoute.useNote newest, log2) =>
        let toUpd := diffFields desired newest.fields
        let step1 : Except String (AnkiState × List AAct) :=
          if toUpd.isEmpty then .ok (st, log2)
          else
            let aUF := AAct.updateNoteFields newest.noteId toUpd
            match afail aUF with
            | some msg => .error msg
            | none => .ok (updateFieldsSem st newest.noteId toUpd, log2 ++ [aUF])
        match step1 with
        | .error msg => .error msg
        | .ok (st2, log3) =>
          let merged := dedupGo [] (newest.tags ++ newNoteTags sourceTitle)
          let aUT := AAct.updateNoteTags newest.noteId merged
          match afail aUT with
          | some msg => .error msg
          | none =>
            pushRows cfg afail deckName sourceTitle
              (updateTagsSem st2 newest.noteId merged) (log3 ++ [aUT])
              created (updated + 1) rest

/-- The per-source loop: derive the deck name, ensure the deck once
(`createDeck` failures propagate: the call is not guarded), read the
source's rows newest-first, and run the per-card loop. -/
def pushSrcs (cfg : AnkiCfg) (afail : AAct → Option String)
    (db : List ERow) :
    AnkiState → List AAct → List String → Nat → Nat → List String →
      Except String (AnkiState × List AAct × Nat × Nat)
  | st, log, _, created, updated, [] => .ok (st, log, created, updated)
  | st, log, ensured, created, updated, sourceTitle :: rest =>
    let deckName := cfg.deckPref ++ "::" ++ sanitizeDeckComponent sourceTitle
    let ensureStep : Except String (AnkiState × List AAct × List String) :=
      if ensured.contains deckName then .ok (st, log, ensured)
      else
        let aCD := AAct.createDeck deckName
        match afail aCD with
        | some msg => .error msg
        | none => .ok (createDeckSem st deckName, log ++ [aCD],
            deckName :: ensured)
    match ensureStep with
    | .error msg => .error msg
    | .ok (st1, log1, ensured1) =>
      match pushRows cfg afail deckName sourceTitle st1 log1 created updated
          (sortByUpdDesc (db.filter (fun r => r.source_title == sourceTitle))) with
      | .error msg => .error msg
      | .ok (st2, log2, created2, updated2) =>
        pushSrcs cfg afail db st2 log2 ensured1 created2 updated2 rest

/-- The `{created, updated}` result of a push. -/
structure PushRes where
  created : Nat
  updated : Nat
deriving DecidableEq, Repr

/-- `PushToAnkiUseCase.pushForSources`: skip when auto-push is disabled;
dedup the nonempty sources; run per source; if anything was created or
updated, trigger the best-effort sync (its failure is swallowed and it
does not change the modelled state). -/
def pushForSources (cfg : AnkiCfg) (afail : AAct → Option String)
    (db : List ERow) (sources : List String) (st0 : AnkiState) :
    Except String (AnkiState × List AAct × PushRes) :=
  if !cfg.autoPush then .ok (st0, [], ⟨0, 0⟩)
  else
    match pushSrcs cfg afail db st0 [] [] 0 0
        (dedupGo [] (sources.filter (fun s => !(s == "")))) with
    | .error msg => .error msg
    | .ok (st, log, created, updated) =>
      if 0 < created + updated then
        .ok (st, log ++ [AAct.sync], ⟨created, updated⟩)
      else .ok (st, log, ⟨created, updated⟩)

/-- Result projection of a push outcome. -/
def pushResOf (x : Except String (AnkiState × List AAct × PushRes)) :
    Option PushRes :=
  match x with
  | .ok (_, _, r) => some r
  | .error _ => none

/-- Log projection of a push outcome. -/
def pushLogOf (x : Except String (AnkiState × List AAct × PushRes)) :
    List AAct :=
  match x with
  | .ok (_, l, _) => l
  | .error _ => []

/-- Final-state projection of a push outcome. -/
def pushStateOf (x : Except String (AnkiState × List AAct × PushRes))
    (dflt : AnkiState) : AnkiState :=
  match x with
  | .ok (st, _, _) => st
  | .error _ => dflt

/-- Whether a push outcome is a hard error. -/
def pushErred (x : Except String (AnkiState × List AAct × PushRes)) : Bool :=
  match x with
  | .error _ => true
  | .ok _ => false

def isUpdateFieldsAct : AAct → Bool
  | .updateNoteFields _ _ => true
  | _ => false

def isUpdateTagsAct : AAct → Bool
  | .updateNoteTags _ _ => true
  | _ => false

def isAddNoteAct : AAct → Bool
  | .addNote _ _ _ => true
  | _ => false

/-! ## Theorems -/

theorem isSubL_iff (p l : List Char) : isSubL p l = true ↔ p <:+: l := by
  induction l with
  | nil => simp [isSubL, List.isEmpty_iff]
  | cons c rest ih =>
    simp [isSubL, List.isPrefixOf_iff_prefix, ih, List.infix_cons_iff]

/-- An infix occurrence made of non-whitespace characters survives
`dropWhile isWsChar`. -/
theorem infix_dropWhile_of_nonWs {p l : List Char} (hne : p ≠ [])
    (hnw : ∀ c ∈ p, isWsChar c = false) (h : p <:+: l) :
    p <:+: l.dropWhile isWsChar := by
  induction l with
  | nil => simpa using h
  | cons c rest ih =>
    by_cases hc : isWsChar c
    · rw [List.dropWhile_cons_of_pos hc]
      rcases List.infix_cons_iff.mp h with hpre | hinf
      · -- p would have to start with the whitespace char c
        cases p with
        | nil => exact absurd rfl hne
        | cons a p' =>
          have hac : a = c := (List.cons_prefix_cons.mp hpre).1
          have hfa := hnw a (by simp)
          rw [hac] at hfa
          simp [hfa] at hc
      · exact ih hinf
    · rw [List.dropWhile_cons_of_neg hc]
      exact h

/-- An all-non-whitespace infix occurrence survives `jsTrim`. -/
theorem infix_jsTrim_of_nonWs {p l : List Char} (hne : p ≠ [])
    (hnw : ∀ c ∈ p, isWsChar c = false) (h : p <:+: l) :
    p <:+: jsTrim l := by
  have h1 : p <:+: l.dropWhile isWsChar := infix_dropWhile_of_nonWs hne hnw h
  have h2 : p.reverse <:+: (l.dropWhile isWsChar).reverse :=
    List.reverse_infix.mpr h1
  have hne' : p.reverse ≠ [] := by simpa using hne
  have hnw' : ∀ c ∈ p.reverse, isWsChar c = false := by
    intro c hc
    exact hnw c (List.mem_reverse.mp hc)
  have h3 : p.reverse <:+: ((l.dropWhile isWsChar).reverse.dropWhile isWsChar) :=
    infix_dropWhile_of_nonWs hne' hnw' h2
  have h4 := List.reverse_infix.mpr h3
  simpa [jsTrim] using h4

/-- `jsTrim l` is an infix of `l`. -/
theorem jsTrim_shrinks (l : List Char) : jsTrim l <:+: l := by
  have h1 : (l.dropWhile isWsChar).reverse.dropWhile isWsChar <:+
      (l.dropWhile isWsChar).reverse := List.dropWhile_suffix _
  have h2 : jsTrim l <+: l.dropWhile isWsChar := by
    have := List.reverse_prefix.mpr h1
    simpa [jsTrim] using this
  have h3 : l.dropWhile isWsChar <:+ l := List.dropWhile_suffix _
  exact h2.isInfix.trans h3.isInfix

/-- For a nonempty all-non-whitespace pattern, occurrence in a line and in
its trimmed form agree. -/
theorem isSubL_jsTrim {p : List Char} (l : List Char) (hne : p ≠ [])
    (hnw : ∀ c ∈ p, isWsChar c = false) :
    isSubL p (jsTrim l) = isSubL p l := by
  rcases h : isSubL p l with _ | _
  · rcases h' : isSubL p (jsTrim l) with _ | _
    · rfl
    · have := (isSubL_iff _ _).mp h'
      have : p <:+: l := this.trans (jsTrim_shrinks l)
      rw [← isSubL_iff] at this
      simp [h] at this
  · have := (isSubL_iff _ _).mp h
    have := infix_jsTrim_of_nonWs hne hnw this
    rw [← isSubL_iff] at this
    rw [this]

/-- Substring presence is equivalent to existence of an occurrence position
(for a nonempty pattern). -/
theorem isSubL_iff_occursAt {p : List Char} (hne : p ≠ []) (l : List Char) :
    isSubL p l = true ↔ ∃ i : Fin l.length, occursAt l p i = true := by
  rw [isSubL_iff]
  constructor
  · rintro ⟨s, t, rfl⟩
    have hp : 0 < p.length := List.length_pos.mpr hne
    refine ⟨⟨s.length, ?_⟩, ?_⟩
    · simp [List.length_append]
      omega
    · have : (s ++ p ++ t).drop s.length = p ++ t := by
        rw [List.append_assoc, List.drop_left]
      simp only [occursAt, this, List.isPrefixOf_iff_prefix]
      exact ⟨t, rfl⟩
  · rintro ⟨⟨i, hi⟩, hocc⟩
    have hp : p <+: l.drop i := List.isPrefixOf_iff_prefix.mp hocc
    exact hp.isInfix.trans (List.drop_suffix i l).isInfix

theorem isBookReference_jsTrim (r : List Char) :
    isBookReference (jsTrim r) = isBookReference r := by
  unfold isBookReference
  rw [isSubL_jsTrim r (by decide) (by decide),
    isSubL_jsTrim r (by decide) (by decide),
    isSubL_jsTrim r (by decide) (by decide)]

theorem jsTrim_not_empty_of_isBookReference {r : List Char}
    (h : isBookReference r = true) : (jsTrim r).isEmpty = false := by
  have hb : isSubL ['['] r = true := by
    unfold isBookReference at h
    simp only [Bool.and_eq_true] at h
    exact h.1.1
  have h2 : isSubL ['['] (jsTrim r) = true := by
    rw [isSubL_jsTrim r (by decide) (by decide)]
    exact hb
  cases he : (jsTrim r).isEmpty with
  | false => rfl
  | true =>
    rw [List.isEmpty_iff.mp he] at h2
    simp [isSubL] at h2

theorem splitNl_no_nl {l : List Char} (h : l.contains '\n' = false) :
    splitNl l = [l] := by
  induction l with
  | nil => rfl
  | cons c rest ih =>
    simp only [List.contains_cons, Bool.or_eq_false_iff] at h
    have hc : (c == '\n') = false := by
      cases hcc : c == '\n' with
      | false => rfl
      | true =>
        have := beq_iff_eq.mp hcc
        subst this
        simp at h
    rw [splitNl, hc]
    simp only [Bool.false_eq_true, if_false]
    rw [ih h.2]

theorem splitNl_append_nl {l : List Char} (h : l.contains '\n' = false)
    (xs : List Char) : splitNl (l ++ '\n' :: xs) = l :: splitNl xs := by
  induction l with
  | nil =>
    simp only [List.nil_append]
    rw [splitNl]
    simp
  | cons c rest ih =>
    simp only [List.contains_cons, Bool.or_eq_false_iff] at h
    have hc : (c == '\n') = false := by
      cases hcc : c == '\n' with
      | false => rfl
      | true =>
        have := beq_iff_eq.mp hcc
        subst this
        simp at h
    simp only [List.cons_append]
    rw [splitNl, hc]
    simp only [Bool.false_eq_true, if_false]
    rw [ih h.2]

theorem splitNl_intercalate {L : List (List Char)} (hL : L ≠ [])
    (h : ∀ l ∈ L, l.contains '\n' = false) :
    splitNl (intercalateNl L) = L := by
  induction L with
  | nil => exact absurd rfl hL
  | cons l rest ih =>
    cases rest with
    | nil =>
      rw [intercalateNl]
      exact splitNl_no_nl (h l (by simp))
    | cons l' rest' =>
      rw [intercalateNl, splitNl_append_nl (h l (by simp))]
      rw [ih (by simp) (fun x hx => h x (by simp [hx]))]

theorem mem_interleave {pairs : List (List Char × List Char)} {l : List Char}
    (h : l ∈ interleave pairs) : ∃ p ∈ pairs, l = p.1 ∨ l = p.2 := by
  induction pairs with
  | nil => simp [interleave] at h
  | cons p rest ih =>
    rw [interleave] at h
    simp only [List.mem_cons] at h
    rcases h with h | h | h
    · exact ⟨p, by simp, Or.inl h⟩
    · exact ⟨p, by simp, Or.inr h⟩
    · obtain ⟨q, hq, hl⟩ := ih h
      exact ⟨q, by simp [hq], hl⟩

/-! Step lemmas for `parseGo`, one per branch of the loop body. -/

theorem parseGo_nil (src : List Char) : parseGo src [] = [] := rfl

theorem parseGo_cons_blank {line : List Char} (src : List Char)
    (rest : List (List Char)) (h : (jsTrim line).isEmpty = true) :
    parseGo src (line :: rest) = parseGo src rest := by
  conv_lhs => rw [parseGo.eq_def]
  simp [h]

theorem parseGo_cons_ref {line : List Char} (src : List Char)
    (rest : List (List Char)) (h : isBookReference (jsTrim line) = true) :
    parseGo src (line :: rest) = parseGo src rest := by
  conv_lhs => rw [parseGo.eq_def]
  by_cases hb : (jsTrim line).isEmpty
  · simp [hb]
  · simp [hb, h]

theorem parseGo_single {line : List Char} (src : List Char)
    (h1 : (jsTrim line).isEmpty = false)
    (h2 : isBookReference (jsTrim line) = false) :
    parseGo src [line] = [] := by
  conv_lhs => rw [parseGo.eq_def]
  simp [h1, h2]

theorem parseGo_cons_pair {line next : List Char} (src : List Char)
    (tail : List (List Char)) (h1 : (jsTrim line).isEmpty = false)
    (h2 : isBookReference (jsTrim line) = false)
    (h3 : isBookReference next = true) {b : List Char}
    (hext : extractBookFilename next = some b) (hb : b.isEmpty = false) :
    parseGo src (line :: next :: tail) =
      DigestEntry.create (jsTrim line) b src :: parseGo src (next :: tail) := by
  conv_lhs => rw [parseGo.eq_def]
  simp [h1, h2, h3, hext, hb]

theorem parseGo_cons_noref {line next : List Char} (src : List Char)
    (tail : List (List Char)) (h1 : (jsTrim line).isEmpty = false)
    (h2 : isBookReference (jsTrim line) = false)
    (h3 : isBookReference next = false) :
    parseGo src (line :: next :: tail) = parseGo src (next :: tail) := by
  conv_lhs => rw [parseGo.eq_def]
  simp [h1, h2, h3]

theorem parseGo_cons_badlink {line next : List Char} (src : List Char)
    (tail : List (List Char)) (h1 : (jsTrim line).isEmpty = false)
    (h2 : isBookReference (jsTrim line) = false)
    (h3 : isBookReference next = true)
    (hext : extractBookFilename next = none) :
    parseGo src (line :: next :: tail) = parseGo src (next :: tail) := by
  conv_lhs => rw [parseGo.eq_def]
  simp [h1, h2, h3, hext]

theorem parseGo_cons_blanklink {line next : List Char} (src : List Char)
    (tail : List (List Char)) (h1 : (jsTrim line).isEmpty = false)
    (h2 : isBookReference (jsTrim line) = false)
    (h3 : isBookReference next = true) {b : List Char}
    (hext : extractBookFilename next = some b) (hb : b.isEmpty = true) :
    parseGo src (line :: next :: tail) = parseGo src (next :: tail) := by
  conv_lhs => rw [parseGo.eq_def]
  simp [h1, h2, h3, hext, hb]

/-- The parser loop on an interleaved sequence of valid pairs yields exactly
one entry per pair, in order. -/
theorem parseGo_interleave (src : List Char) :
    ∀ pairs : List (List Char × List Char),
      (∀ p ∈ pairs, validHeadword p.1 = true ∧ validRef p.2 = true) →
      parseGo src (interleave pairs) =
        pairs.map (fun p => DigestEntry.create (jsTrim p.1)
          ((extractBookFilename p.2).getD []) src) := by
  intro pairs
  induction pairs with
  | nil =>
    intro _
    simp [interleave, parseGo]
  | cons p rest ih =>
    intro hv
    obtain ⟨hw, hr⟩ := hv p (by simp)
    have hvrest : ∀ q ∈ rest, validHeadword q.1 = true ∧ validRef q.2 = true :=
      fun q hq => hv q (by simp [hq])
    simp only [validHeadword, Bool.and_eq_true, Bool.not_eq_true'] at hw
    obtain ⟨⟨hw1, hw2⟩, _⟩ := hw
    simp only [validRef, Bool.and_eq_true] at hr
    obtain ⟨⟨hr1, hr2⟩, _⟩ := hr
    rcases hext : extractBookFilename p.2 with _ | b
    · rw [hext] at hr2
      simp at hr2
    · rw [hext] at hr2
      simp only [Bool.not_eq_true'] at hr2
      rw [interleave,
        parseGo_cons_pair src (interleave rest) hw1 hw2 hr1 hext hr2,
        parseGo_cons_ref src (interleave rest)
          ((isBookReference_jsTrim p.2).trans hr1),
        ih hvrest]
      simp [hext]

/-- Soundness of the parser loop: every produced entry comes from a
non-reference line immediately followed by a reference line with a valid
nonblank link. -/
theorem parseGo_sound (src : List Char) :
    ∀ lines (e : DigestEntry), e ∈ parseGo src lines →
      ∃ pre l next post b,
        lines = pre ++ l :: next :: post ∧
        isBookReference (jsTrim l) = false ∧
        isBookReference next = true ∧
        extractBookFilename next = some b ∧ b.isEmpty = false ∧
        e = DigestEntry.create (jsTrim l) b src := by
  intro lines
  induction lines with
  | nil =>
    intro e he
    simp [parseGo] at he
  | cons line rest ih =>
    intro e he
    have step : ∀ h : e ∈ parseGo src rest,
        ∃ pre l next post b,
          line :: rest = pre ++ l :: next :: post ∧
          isBookReference (jsTrim l) = false ∧
          isBookReference next = true ∧
          extractBookFilename next = some b ∧ b.isEmpty = false ∧
          e = DigestEntry.create (jsTrim l) b src := by
      intro h
      obtain ⟨pre, l, next, post, b, hdec, h2, h3, h4, h5, h6⟩ := ih e h
      exact ⟨line :: pre, l, next, post, b, by rw [hdec, List.cons_append],
        h2, h3, h4, h5, h6⟩
    by_cases h1 : (jsTrim line).isEmpty
    · rw [parseGo_cons_blank src rest h1] at he
      exact step he
    · rw [Bool.not_eq_true] at h1
      by_cases h2 : isBookReference (jsTrim line)
      · rw [parseGo_cons_ref src rest h2] at he
        exact step he
      · rw [Bool.not_eq_true] at h2
        cases rest with
        | nil =>
          rw [parseGo_single src h1 h2] at he
          simp at he
        | cons next tail =>
          by_cases h3 : isBookReference next
          · rcases hext : extractBookFilename next with _ | b
            · rw [parseGo_cons_badlink src tail h1 h2 h3 hext] at he
              exact step he
            · by_cases h4 : b.isEmpty
              · rw [parseGo_cons_blanklink src tail h1 h2 h3 hext h4] at he
                exact step he
              · rw [Bool.not_eq_true] at h4
                rw [parseGo_cons_pair src tail h1 h2 h3 hext h4] at he
                rcases List.mem_cons.mp he with hEq | hmem
                · exact ⟨[], line, next, tail, b, rfl, h2, h3, hext, h4, hEq⟩
                · exact step hmem
          · rw [Bool.not_eq_true] at h3
            rw [parseGo_cons_noref src tail h1 h2 h3] at he
            exact step he

/-- Claim C3: for input text consisting solely of valid (headword,
reference) line pairs, `parse` returns exactly one entry per pair, with
word and book filename trimmed, in the original order; empty input yields
the empty list; and on arbitrary input every produced entry arises from a
non-reference line immediately followed by a reference line carrying a
nonblank link, so unpaired headwords and lone reference lines never produce
entries.  `parse` is a total Lean function, which witnesses that the parser
never throws on malformed input. -/
theorem parse_spec :
    (∀ (pairs : List (List Char × List Char)) (src : List Char),
       (∀ p ∈ pairs, validHeadword p.1 = true ∧ validRef p.2 = true) →
       parse (intercalateNl (interleave pairs)) src =
         pairs.map (fun p => DigestEntry.create (jsTrim p.1)
           ((extractBookFilename p.2).getD []) src)) ∧
    (∀ src : List Char, parse [] src = []) ∧
    (∀ (content src : List Char) (e : DigestEntry), e ∈ parse content src →
       ∃ pre l next post b,
         (splitNl content).filter (fun l => !(jsTrim l).isEmpty) =
           pre ++ l :: next :: post ∧
         isBookReference (jsTrim l) = false ∧
         isBookReference next = true ∧
         extractBookFilename next = some b ∧ b.isEmpty = false ∧
         e = DigestEntry.create (jsTrim l) b src) := by
  refine ⟨?_, ?_, ?_⟩
  · intro pairs src hv
    cases pairs with
    | nil => rfl
    | cons p rest =>
      have hsplit : splitNl (intercalateNl (interleave (p :: rest))) =
          interleave (p :: rest) := by
        apply splitNl_intercalate
        · simp [interleave]
        · intro l hl
          obtain ⟨q, hq, hl12⟩ := mem_interleave hl
          obtain ⟨hwq, hrq⟩ := hv q hq
          rcases hl12 with rfl | rfl
          · simp only [validHeadword, Bool.and_eq_true, Bool.not_eq_true'] at hwq
            exact hwq.2
          · simp only [validRef, Bool.and_eq_true, Bool.not_eq_true'] at hrq
            exact hrq.2
      have hfilter : (interleave (p :: rest)).filter
          (fun l => !(jsTrim l).isEmpty) = interleave (p :: rest) := by
        apply List.filter_eq_self.mpr
        intro l hl
        obtain ⟨q, hq, hl12⟩ := mem_interleave hl
        obtain ⟨hwq, hrq⟩ := hv q hq
        rcases hl12 with rfl | rfl
        · simp only [validHeadword, Bool.and_eq_true] at hwq
          exact hwq.1.1
        · simp only [validRef, Bool.and_eq_true] at hrq
          simp [jsTrim_not_empty_of_isBookReference hrq.1.1]
      rw [parse, hsplit, hfilter]
      exact parseGo_interleave src (p :: rest) hv
  · intro src
    rfl
  · intro content src e he
    exact parseGo_sound src _ e he

/-- Witness for claim C3: a concrete two-line digest parses to the single
trimmed entry. -/
theorem parse_spec_witness :
    parse (intercalateNl (interleave
        [(" swoon ".toList, "[ B.epub ](Document/B.epub)".toList)]))
        "d.txt".toList =
      [⟨"swoon".toList, "B.epub".toList, "d.txt".toList⟩] := by
  rw [parse_spec.1 [(" swoon ".toList, "[ B.epub ](Document/B.epub)".toList)]
    "d.txt".toList (by decide)]
  decide

/-- Claim C4 (counterexample): the line `)](a[` contains all three
substrings `[`, `](`, `)` but not in the relative order the claim states,
yet `isBookReference` classifies it as a reference line.  So the
classification is not equivalent to the ordered-occurrence predicate. -/
theorem isBookReference_order_counterexample :
    isBookReference [')', ']', '(', 'a', '['] = true ∧
      ¬ SpecRefLine [')', ']', '(', 'a', '['] := by
  constructor
  · decide
  · decide

/-- Claim C4 (amended): a line is classified as a reference line iff each
of the three substrings `[`, `](`, `)` occurs somewhere in the line, with
no constraint on their relative order. -/
theorem isBookReference_iff_presence (l : List Char) :
    isBookReference l = true ↔
      ((∃ i : Fin l.length, occursAt l ['['] i = true) ∧
       (∃ j : Fin l.length, occursAt l [']', '('] j = true) ∧
       (∃ k : Fin l.length, occursAt l [')'] k = true)) := by
  unfold isBookReference
  rw [Bool.and_eq_true, Bool.and_eq_true,
    isSubL_iff_occursAt (by decide) l, isSubL_iff_occursAt (by decide) l,
    isSubL_iff_occursAt (by decide) l]
  tauto

/-- Words present in a store grow monotonically under append. -/
theorem wordExists_append (st : List DRow) (e : DRow) (w : String) :
    wordExists (st ++ [e]) w = (wordExists st w || e.word == w) := by
  simp [wordExists, List.any_append]

theorem findByWord_append_of_exists {st : List DRow} (e : DRow) {w : String}
    (h : wordExists st w = true) :
    findByWord (st ++ [e]) w = findByWord st w := by
  rw [findByWord, List.find?_append]
  have : (st.find? (fun r => r.word == w)).isSome := by
    rw [List.find?_isSome]
    simpa [wordExists, List.any_eq_true] using h
  rcases hf : st.find? (fun r => r.word == w) with _ | r
  · rw [hf] at this
    simp at this
  · simp [findByWord, hf]

/-- Any store reached by `saveManyGo` with success extends the working
store, adds only fresh-worded batch entries, preserves word-uniqueness and
never alters a row whose word was already stored. -/
theorem saveManyGo_ok_spec (dfail : DRow → Option String) :
    ∀ (entries : List DRow) (working : List DRow) (n : Nat) (st' : List DRow)
      (n' : Nat), saveManyGo dfail working n entries = .ok (st', n') →
      (working <+: st' ∧
       (∀ r ∈ st', r ∈ working ∨
          (r ∈ entries ∧ wordExists working r.word = false)) ∧
       (working.Pairwise (fun a b => a.word ≠ b.word) →
         st'.Pairwise (fun a b => a.word ≠ b.word)) ∧
       (∀ w, wordExists working w = true →
          findByWord st' w = findByWord working w)) := by
  intro entries
  induction entries with
  | nil =>
    intro working n st' n' h
    rw [saveManyGo] at h
    cases h
    exact ⟨List.prefix_rfl, fun r hr => Or.inl hr, fun h => h, fun _ _ => rfl⟩
  | cons e rest ih =>
    intro working n st' n' h
    rw [saveManyGo] at h
    cases hf : dfail e with
    | some msg => rw [hf] at h; cases h
    | none =>
      rw [hf] at h
      by_cases hex : wordExists working e.word
      · have hins : insertIgnoreD working e = (working, false) := by
          rw [insertIgnoreD, if_pos hex]
        rw [hins] at h
        replace h : saveManyGo dfail working n rest = Except.ok (st', n') := h
        obtain ⟨h1, h2, h3, h4⟩ := ih working n st' n' h
        exact ⟨h1, fun r hr => (h2 r hr).imp id (fun ⟨hm, hfr⟩ =>
          ⟨List.mem_cons_of_mem e hm, hfr⟩), h3, h4⟩
      · have hins : insertIgnoreD working e = (working ++ [e], true) := by
          rw [insertIgnoreD, if_neg hex]
        rw [hins] at h
        replace h : saveManyGo dfail (working ++ [e]) (n + 1) rest =
            Except.ok (st', n') := h
        rw [Bool.not_eq_true] at hex
        obtain ⟨h1, h2, h3, h4⟩ := ih (working ++ [e]) (n + 1) st' n' h
        refine ⟨(List.prefix_append working [e]).trans h1, ?_, ?_, ?_⟩
        · intro r hr
          rcases h2 r hr with hm | ⟨hm, hfr⟩
          · rcases List.mem_append.mp hm with hm' | hm'
            · exact Or.inl hm'
            · have : r = e := by simpa using hm'
              subst this
              exact Or.inr ⟨List.mem_cons_self _ _, hex⟩
          · rw [wordExists_append] at hfr
            rcases Bool.or_eq_false_iff.mp hfr with ⟨hf1, _⟩
            exact Or.inr ⟨List.mem_cons_of_mem e hm, hf1⟩
        · intro hu
          apply h3
          rw [List.pairwise_append]
          refine ⟨hu, by simp, ?_⟩
          have hex' : ∀ x ∈ working, ¬ x.word = e.word := by
            simpa [wordExists, List.any_eq_true] using hex
          intro a ha b hb
          have hb' : b = e := by simpa using hb
          subst hb'
          exact hex' a ha
        · intro w hw
          rw [h4 w (by rw [wordExists_append, hw]; rfl)]
          exact findByWord_append_of_exists e hw

/-- On success `saveManyGo` adds `batch length − already-present count` to
the accumulator, provided the batch has pairwise-distinct words and no
injected failure. -/
theorem saveManyGo_count (dfail : DRow → Option String) :
    ∀ (entries : List DRow) (working : List DRow) (n : Nat),
      (∀ r ∈ entries, dfail r = none) →
      entries.Pairwise (fun a b => a.word ≠ b.word) →
      ∃ st', saveManyGo dfail working n entries =
        .ok (st', n + (entries.length -
          (entries.filter (fun r => wordExists working r.word)).length)) := by
  intro entries
  induction entries with
  | nil =>
    intro working n _ _
    exact ⟨working, by simp [saveManyGo]⟩
  | cons e rest ih =>
    intro working n hf hp
    have hfe : dfail e = none := hf e (by simp)
    have hfr : ∀ r ∈ rest, dfail r = none := fun r hr => hf r (by simp [hr])
    have hpr : rest.Pairwise (fun a b => a.word ≠ b.word) :=
      (List.pairwise_cons.mp hp).2
    have hne : ∀ r ∈ rest, e.word ≠ r.word := (List.pairwise_cons.mp hp).1
    by_cases hex : wordExists working e.word
    · obtain ⟨st', hst'⟩ := ih working n hfr hpr
      refine ⟨st', ?_⟩
      have hK : ((e :: rest).filter (fun r => wordExists working r.word)).length =
          (rest.filter (fun r => wordExists working r.word)).length + 1 := by
        simp [List.filter_cons, hex]
      have heq : n + ((e :: rest).length -
          ((e :: rest).filter (fun r => wordExists working r.word)).length) =
          n + (rest.length -
            (rest.filter (fun r => wordExists working r.word)).length) := by
        rw [hK]
        simp only [List.length_cons]
        omega
      rw [heq]
      have hins : insertIgnoreD working e = (working, false) := by
        rw [insertIgnoreD, if_pos hex]
      rw [saveManyGo, hfe, hins]
      exact hst'
    · have hexf : wordExists working e.word = false := Bool.not_eq_true _ |>.mp hex
      obtain ⟨st', hst'⟩ := ih (working ++ [e]) (n + 1) hfr hpr
      refine ⟨st', ?_⟩
      have hsame : rest.filter (fun r => wordExists (working ++ [e]) r.word) =
          rest.filter (fun r => wordExists working r.word) := by
        apply List.filter_congr
        intro r hr
        rw [wordExists_append]
        have hsym : (e.word == r.word) = false := by
          rw [beq_eq_false_iff_ne]
          exact hne r hr
        rw [hsym]
        simp
      have hK : ((e :: rest).filter (fun r => wordExists working r.word)).length =
          (rest.filter (fun r => wordExists working r.word)).length := by
        simp [List.filter_cons, hexf]
      have hle : (rest.filter (fun r => wordExists working r.word)).length ≤
          rest.length := List.length_filter_le _ _
      have heq : n + ((e :: rest).length -
          ((e :: rest).filter (fun r => wordExists working r.word)).length) =
          (n + 1) + (rest.length -
            ((rest.filter (fun r => wordExists (working ++ [e]) r.word))).length) := by
        rw [hsame, hK]
        simp only [List.length_cons]
        omega
      rw [heq]
      have hins : insertIgnoreD working e = (working ++ [e], true) := by
        rw [insertIgnoreD, if_neg hex]
      rw [saveManyGo, hfe, hins]
      exact hst'

/-- Claim C5 (counterexample): a batch of N = 2 entries sharing one fresh
word has K = 0 words already present in the (empty) store, yet
`saveManyIfNew` returns 1, not N − K = 2: the second occurrence of the
word inside the same batch is also skipped. -/
theorem saveManyIfNew_count_counterexample :
    (([⟨"w", "b", "s", 0⟩, ⟨"w", "c", "t", 1⟩] :
        List DRow).filter (fun r => wordExists [] r.word)).length = 0 ∧
    (saveManyIfNew (fun _ => none) []
        [⟨"w", "b", "s", 0⟩, ⟨"w", "c", "t", 1⟩]).2 = Except.ok 1 ∧
    (1 : Nat) ≠ 2 - 0 := by
  refine ⟨by decide, rfl, by decide⟩

/-- Claim C5 (amended): `upsert` on a word not yet stored returns true, and
a second `upsert` of the same word then returns false (no error is raised:
both calls resolve); `saveManyIfNew` on N entries with pairwise-distinct
words, of which K words already exist in the store, resolves to exactly
N − K when no unexpected storage failure is injected. -/
theorem upsert_twice_and_count :
    (∀ (st : List DRow) (e e' : DRow), wordExists st e.word = false →
       e'.word = e.word →
       (upsert st e).2 = true ∧ (upsert (upsert st e).1 e').2 = false) ∧
    (∀ (dfail : DRow → Option String) (st : List DRow) (entries : List DRow),
       (∀ r ∈ entries, dfail r = none) →
       entries.Pairwise (fun a b => a.word ≠ b.word) →
       (saveManyIfNew dfail st entries).2 = Except.ok (entries.length -
         (entries.filter (fun r => wordExists st r.word)).length)) := by
  constructor
  · intro st e e' hfresh heq
    constructor
    · rw [upsert, insertIgnoreD, if_neg (by rw [hfresh]; exact Bool.false_ne_true)]
    · have hfst : (upsert st e).1 = st ++ [e] := by
        rw [upsert, insertIgnoreD, if_neg (by rw [hfresh]; exact Bool.false_ne_true)]
      rw [hfst, upsert, insertIgnoreD, if_pos ?h]
      case h =>
        rw [wordExists_append, heq]
        simp
  · intro dfail st entries hnf hpw
    obtain ⟨st', hst'⟩ := saveManyGo_count dfail entries st 0 hnf hpw
    rw [saveManyIfNew, hst']
    simp

/-- Witness for claim C5 (amended): store holding word x; batch of one
existing word and one fresh word inserts exactly 2 − 1 = 1 row, and the
double-upsert scenario returns true then false. -/
theorem upsert_twice_and_count_witness :
    ((upsert [] ⟨"x", "b", "s", 0⟩).2 = true ∧
      (upsert (upsert [] ⟨"x", "b", "s", 0⟩).1 ⟨"x", "c", "t", 1⟩).2 = false) ∧
    (saveManyIfNew (fun _ => none) [⟨"x", "b", "s", 0⟩]
        [⟨"x", "c", "t", 1⟩, ⟨"y", "b", "s", 2⟩]).2 = Except.ok 1 := by
  constructor
  · exact upsert_twice_and_count.1 [] ⟨"x", "b", "s", 0⟩ ⟨"x", "c", "t", 1⟩
      (by decide) rfl
  · have h := upsert_twice_and_count.2 (fun _ => none) [⟨"x", "b", "s", 0⟩]
      [⟨"x", "c", "t", 1⟩, ⟨"y", "b", "s", 2⟩] (fun r _ => rfl) (by decide)
    rw [h]
    rfl

/-- With no injected failure `saveManyGo` always resolves. -/
theorem saveManyGo_ok_of_noFail (dfail : DRow → Option String) :
    ∀ (l : List DRow) (working : List DRow) (n : Nat),
      (∀ r ∈ l, dfail r = none) →
      ∃ st' n', saveManyGo dfail working n l = Except.ok (st', n') := by
  intro l
  induction l with
  | nil => exact fun working n _ => ⟨working, n, rfl⟩
  | cons e rest ih =>
    intro working n hnf
    rw [saveManyGo, hnf e (by simp)]
    rcases hins : insertIgnoreD working e with ⟨w, b⟩
    obtain ⟨st', n', hok⟩ := ih w (n + if b then 1 else 0)
      (fun r hr => hnf r (by simp [hr]))
    exact ⟨st', n', hok⟩

/-- Claim C6: `saveManyIfNew` commits the batch as a single unit.  If an
unexpected storage failure hits any entry of the batch, the committed
store is unchanged and the call rejects.  Entries whose word already
exists never abort the transaction: with no failure injected the call
always resolves, the previously committed rows are preserved in place,
and every newly committed row is a batch entry whose word was not
previously stored (duplicates are silently skipped). -/
theorem saveManyIfNew_atomic :
    (∀ (dfail : DRow → Option String) (st entries : List DRow),
       (∃ r ∈ entries, dfail r ≠ none) →
       (saveManyIfNew dfail st entries).1 = st ∧
       ∃ msg, (saveManyIfNew dfail st entries).2 = Except.error msg) ∧
    (∀ (dfail : DRow → Option String) (st entries : List DRow),
       (∀ r ∈ entries, dfail r = none) →
       ∃ n st', saveManyIfNew dfail st entries = (st', Except.ok n) ∧
         st <+: st' ∧
         ∀ r ∈ st', r ∈ st ∨
           (r ∈ entries ∧ wordExists st r.word = false)) := by
  constructor
  · intro dfail st entries hfail
    have herr : ∀ (working : List DRow) (n : Nat) (l : List DRow),
        (∃ r ∈ l, dfail r ≠ none) →
        ∃ msg, saveManyGo dfail working n l = Except.error msg := by
      intro working n l
      induction l generalizing working n with
      | nil => rintro ⟨r, hr, _⟩; simp at hr
      | cons e rest ih =>
        rintro ⟨r, hr, hrf⟩
        rw [saveManyGo]
        cases hfe : dfail e with
        | some msg => exact ⟨msg, rfl⟩
        | none =>
          rcases List.mem_cons.mp hr with rfl | hr'
          · exact absurd hfe hrf
          · rcases hins : insertIgnoreD working e with ⟨w, b⟩
            obtain ⟨msg, hmsg⟩ := ih w (n + if b then 1 else 0) ⟨r, hr', hrf⟩
            exact ⟨msg, hmsg⟩
    obtain ⟨msg, hmsg⟩ := herr st 0 entries hfail
    rw [saveManyIfNew, hmsg]
    exact ⟨rfl, msg, rfl⟩
  · intro dfail st entries hnf
    obtain ⟨st', n', hok⟩ := saveManyGo_ok_of_noFail dfail entries st 0 hnf
    obtain ⟨h1, h2, _, _⟩ := saveManyGo_ok_spec dfail entries st 0 st' n' hok
    exact ⟨n', st', by rw [saveManyIfNew, hok], h1, h2⟩

/-- Witness for claim C6: a failure injected on the batch's second entry
leaves the one-row store unchanged and rejects; without failures a batch
with one duplicate and one fresh word resolves, extending the store. -/
theorem saveManyIfNew_atomic_witness :
    ((saveManyIfNew (fun r => if r.word == "z" then some "boom" else none)
        [⟨"a", "b", "s", 0⟩] [⟨"y", "b", "s", 1⟩, ⟨"z", "b", "s", 2⟩]).1 =
          [⟨"a", "b", "s", 0⟩] ∧
      ∃ msg, (saveManyIfNew (fun r => if r.word == "z" then some "boom" else none)
        [⟨"a", "b", "s", 0⟩] [⟨"y", "b", "s", 1⟩, ⟨"z", "b", "s", 2⟩]).2 =
          Except.error msg) ∧
    (∃ n st', saveManyIfNew (fun _ => none) [⟨"a", "b", "s", 0⟩]
        [⟨"a", "c", "t", 1⟩, ⟨"y", "b", "s", 2⟩] = (st', Except.ok n) ∧
        [(⟨"a", "b", "s", 0⟩ : DRow)] <+: st' ∧
        ∀ r ∈ st', r ∈ [(⟨"a", "b", "s", 0⟩ : DRow)] ∨
          (r ∈ [(⟨"a", "c", "t", 1⟩ : DRow), ⟨"y", "b", "s", 2⟩] ∧
            wordExists [⟨"a", "b", "s", 0⟩] r.word = false)) := by
  constructor
  · exact saveManyIfNew_atomic.1 _ _ _ ⟨⟨"z", "b", "s", 2⟩, by decide, by decide⟩
  · exact saveManyIfNew_atomic.2 _ _ _ (fun r _ => rfl)

/-- Claim C7: the store keeps at most one row per word, and the insert
operations never touch an already-stored row: `upsert` of an
already-stored word returns the store unchanged with false (the new book
and source are silently dropped), word-uniqueness is preserved by both
`upsert` and `saveManyIfNew`, and for every already-stored word the stored
row — its book and source included — is returned unchanged by
`findByWord` after either operation. -/
theorem store_word_identity :
    (∀ (st : List DRow) (e : DRow), wordExists st e.word = true →
       upsert st e = (st, false)) ∧
    (∀ (st : List DRow) (e : DRow), UniqueWords st →
       UniqueWords (upsert st e).1 ∧
       ∀ w, wordExists st w = true →
         findByWord (upsert st e).1 w = findByWord st w) ∧
    (∀ (dfail : DRow → Option String) (st entries : List DRow), UniqueWords st →
       UniqueWords (saveManyIfNew dfail st entries).1 ∧
       ∀ w, wordExists st w = true →
         findByWord (saveManyIfNew dfail st entries).1 w = findByWord st w) := by
  refine ⟨?_, ?_, ?_⟩
  · intro st e h
    rw [upsert, insertIgnoreD, if_pos h]
  · intro st e hu
    by_cases hex : wordExists st e.word
    · rw [upsert, insertIgnoreD, if_pos hex]
      exact ⟨hu, fun w _ => rfl⟩
    · have hexf : wordExists st e.word = false := Bool.not_eq_true _ |>.mp hex
      have hfst : (upsert st e).1 = st ++ [e] := by
        rw [upsert, insertIgnoreD, if_neg hex]
      rw [hfst]
      constructor
      · unfold UniqueWords
        rw [List.pairwise_append]
        refine ⟨hu, by simp, ?_⟩
        have hex' : ∀ x ∈ st, ¬ x.word = e.word := by
          simpa [wordExists, List.any_eq_true] using hexf
        intro a ha b hb
        have hb' : b = e := by simpa using hb
        subst hb'
        exact hex' a ha
      · intro w hw
        exact findByWord_append_of_exists e hw
  · intro dfail st entries hu
    rcases hok : saveManyGo dfail st 0 entries with msg | ⟨st', n'⟩
    · rw [saveManyIfNew, hok]
      exact ⟨hu, fun w _ => rfl⟩
    · obtain ⟨_, _, h3, h4⟩ := saveManyGo_ok_spec dfail entries st 0 st' n' hok
      rw [saveManyIfNew, hok]
      exact ⟨h3 hu, h4⟩

/-- Witness for claim C7: re-inserting word a under a different book leaves
the store unchanged, both directly and through a batch. -/
theorem store_word_identity_witness :
    upsert [⟨"a", "b", "s", 0⟩] ⟨"a", "c", "t", 1⟩ =
      ([⟨"a", "b", "s", 0⟩], false) ∧
    findByWord (saveManyIfNew (fun _ => none) [⟨"a", "b", "s", 0⟩]
        [⟨"a", "c", "t", 1⟩, ⟨"y", "u", "v", 2⟩]).1 "a" =
      findByWord [⟨"a", "b", "s", 0⟩] "a" := by
  constructor
  · exact store_word_identity.1 _ _ (by decide)
  · exact (store_word_identity.2.2 (fun _ => none) _ _
      (by simp [UniqueWords])).2 "a" (by decide)

/-- Claim C10: applying the enriched-card upsert to a key that already has
a stored row replaces only the six content columns and updated_at of that
one row — its created_at, word and source_title are unchanged — leaves
every other row untouched, and reports a change. -/
theorem upsertE_frame (st : List ERow) (c r0 : ERow) (hu : UniqueKeysE st)
    (hmem : r0 ∈ st) (hkey : keyMatches r0 c.word c.source_title = true) :
    (upsertE st c).2 = true ∧
    (upsertE st c).1 =
      st.map (fun r => if r == r0 then contentReplace r0 c else r) ∧
    (contentReplace r0 c).word = r0.word ∧
    (contentReplace r0 c).source_title = r0.source_title ∧
    (contentReplace r0 c).created_at = r0.created_at := by
  have hex : existsKeyE st c.word c.source_title = true := by
    rw [existsKeyE, List.any_eq_true]
    exact ⟨r0, hmem, hkey⟩
  have honly : ∀ r ∈ st, keyMatches r c.word c.source_title = true → r = r0 := by
    intro r hr hk
    by_contra hne
    have hsymm : Symmetric (fun a b : ERow =>
        a.word ≠ b.word ∨ a.source_title ≠ b.source_title) := by
      intro a b hab
      exact hab.imp Ne.symm Ne.symm
    have hrel : r.word ≠ r0.word ∨ r.source_title ≠ r0.source_title :=
      List.Pairwise.forall hsymm hu hr hmem hne
    simp only [keyMatches, Bool.and_eq_true, beq_iff_eq] at hk hkey
    rcases hrel with hw | hs
    · exact hw (hk.1.trans hkey.1.symm)
    · exact hs (hk.2.trans hkey.2.symm)
  refine ⟨by rw [upsertE, if_pos hex], ?_, rfl, rfl, rfl⟩
  rw [upsertE, if_pos hex]
  simp only
  apply List.map_congr_left
  intro r hr
  by_cases heq : r = r0
  · subst heq
    rw [if_pos hkey]
    simp
  · have hk : keyMatches r c.word c.source_title = false := by
      by_contra hc
      rw [Bool.not_eq_false] at hc
      exact heq (honly r hr hc)
    rw [hk]
    have : (r == r0) = false := by
      rw [beq_eq_false_iff_ne]
      exact heq
    rw [this]
    simp

/-- Witness for claim C10 on a two-row store. -/
theorem upsertE_frame_witness :
    (upsertE
        [⟨"w", "s", "A", none, "noun", "D", "E", "H", 5, 6⟩,
         ⟨"v", "s", "B", none, "verb", "F", "G", "I", 7, 8⟩]
        ⟨"w", "s", "A2", some "alt", "adj", "D2", "E2", "H2", 99, 100⟩).1 =
      [⟨"w", "s", "A2", some "alt", "adj", "D2", "E2", "H2", 5, 100⟩,
       ⟨"v", "s", "B", none, "verb", "F", "G", "I", 7, 8⟩] := by
  have h := upsertE_frame
    [⟨"w", "s", "A", none, "noun", "D", "E", "H", 5, 6⟩,
     ⟨"v", "s", "B", none, "verb", "F", "G", "I", 7, 8⟩]
    ⟨"w", "s", "A2", some "alt", "adj", "D2", "E2", "H2", 99, 100⟩
    ⟨"w", "s", "A", none, "noun", "D", "E", "H", 5, 6⟩
    (by simp [UniqueKeysE]) (by decide) (by decide)
  rw [h.2.1]
  rfl

/-- Under a provider that truncates every multi-word batch and succeeds on
every single word, the backoff always resolves and logs exactly
batch-length many size-one provider calls. -/
theorem ebGo_fake (enr : List String → Except String (List Card))
    (h1 : ∀ ws, 1 < ws.length →
      ∃ m, enr ws = .error m ∧ tokenLimitHit m = true)
    (h2 : ∀ w, ∃ cs, enr [w] = .ok cs) :
    ∀ (fuel : Nat) (ws : List String), ws ≠ [] → ws.length ≤ fuel + 1 →
      ∃ cs log, ebGo enr fuel ws = (.ok cs, log) ∧
        log.count 1 = ws.length := by
  intro fuel
  induction fuel with
  | zero =>
    intro ws hne hlen
    match ws, hne, hlen with
    | [w], _, _ =>
      obtain ⟨cs, hcs⟩ := h2 w
      refine ⟨cs, [1], ?_, by simp⟩
      rw [ebGo, hcs]
      rfl
    | w1 :: w2 :: t, _, hlen => simp at hlen
  | succ fuel ih =>
    intro ws hne hlen
    match ws, hne, hlen with
    | [w], _, _ =>
      obtain ⟨cs, hcs⟩ := h2 w
      refine ⟨cs, [1], ?_, by simp⟩
      simp only [ebGo, hcs]
      rfl
    | w1 :: w2 :: t, _, hlen =>
      set ws := w1 :: w2 :: t with hws
      have hgt : 1 < ws.length := by simp [hws]
      obtain ⟨m, hm, htok⟩ := h1 ws hgt
      have hmid1 : 1 ≤ ws.length / 2 := by
        have : 2 ≤ ws.length := hgt
        omega
      have hmidlt : ws.length / 2 < ws.length := by omega
      have htake_ne : ws.take (ws.length / 2) ≠ [] := by
        have : (ws.take (ws.length / 2)).length = ws.length / 2 := by
          rw [List.length_take]
          omega
        intro hnil
        rw [hnil] at this
        simp at this
        omega
      have hdrop_ne : ws.drop (ws.length / 2) ≠ [] := by
        have : (ws.drop (ws.length / 2)).length = ws.length - ws.length / 2 := by
          rw [List.length_drop]
        intro hnil
        rw [hnil] at this
        simp at this
        omega
      have htake_len : (ws.take (ws.length / 2)).length ≤ fuel + 1 := by
        rw [List.length_take]
        have : ws.length ≤ fuel + 2 := hlen
        omega
      have hdrop_len : (ws.drop (ws.length / 2)).length ≤ fuel + 1 := by
        rw [List.length_drop]
        have : ws.length ≤ fuel + 2 := hlen
        omega
      obtain ⟨lcs, llog, hL, hLc⟩ := ih (ws.take (ws.length / 2)) htake_ne htake_len
      obtain ⟨rcs, rlog, hR, hRc⟩ := ih (ws.drop (ws.length / 2)) hdrop_ne hdrop_len
      refine ⟨lcs ++ rcs, ws.length :: (llog ++ rlog), ?_, ?_⟩
      · simp only [ebGo, hm]
        rw [if_pos (by rw [htok, decide_eq_true hgt]; rfl)]
        rw [hL, hR]
      · have hcnt : (ws.length :: (llog ++ rlog)).count 1 =
            (llog ++ rlog).count 1 + if ws.length = 1 then 1 else 0 := by
          simp [List.count_cons]
        rw [hcnt, List.count_append, hLc, hRc, List.length_take,
          List.length_drop, if_neg (by omega)]
        omega

/-- `enrichWithBackoff` under the truncating fake provider. -/
theorem backoff_fake (enr : List String → Except String (List Card))
    (h1 : ∀ ws, 1 < ws.length →
      ∃ m, enr ws = .error m ∧ tokenLimitHit m = true)
    (h2 : ∀ w, ∃ cs, enr [w] = .ok cs) (ws : List String) (hne : ws ≠ []) :
    ∃ cs log, enrichWithBackoff enr ws = (.ok cs, log) ∧
      log.count 1 = ws.length :=
  ebGo_fake enr h1 h2 ws.length ws hne (by omega)

theorem chunksGo_flatten (n : Nat) :
    ∀ (fuel : Nat) (l : List String), (chunksGo n fuel l).flatten = l := by
  intro fuel
  induction fuel with
  | zero =>
    intro l
    cases l with
    | nil => rfl
    | cons a l' => simp [chunksGo]
  | succ fuel ih =>
    intro l
    cases l with
    | nil => rfl
    | cons a l' =>
      rw [chunksGo]
      · simp only [List.flatten_cons, ih]
        exact List.take_append_drop n (a :: l')
      · simp

theorem chunks_flatten (n : Nat) (l : List String) :
    (chunks n l).flatten = l :=
  chunksGo_flatten n l.length l

theorem chunksGo_ne_nil (n : Nat) (hn : 0 < n) :
    ∀ (fuel : Nat) (l : List String), ∀ b ∈ chunksGo n fuel l, b ≠ [] := by
  intro fuel
  induction fuel with
  | zero =>
    intro l b hb
    cases l with
    | nil => simp [chunksGo] at hb
    | cons a l' =>
      rw [chunksGo] at hb
      · simp at hb
        subst hb
        simp
      · simp
  | succ fuel ih =>
    intro l b hb
    cases l with
    | nil => simp [chunksGo] at hb
    | cons a l' =>
      rw [chunksGo] at hb
      · rcases List.mem_cons.mp hb with rfl | hb'
        · cases n with
          | zero => omega
          | succ n' => simp
        · exact ih (List.drop n (a :: l')) b hb'
      · simp

/-- With no injected failure the enriched-card statement loop resolves. -/
theorem saveManyGoE_ok_of_noFail (efail : ERow → Option String)
    (hnf : ∀ r, efail r = none) :
    ∀ (l : List ERow) (working : List ERow) (n : Nat),
      ∃ st' n', saveManyGoE efail working n l = Except.ok (st', n') := by
  intro l
  induction l with
  | nil => exact fun working n => ⟨working, n, rfl⟩
  | cons c rest ih =>
    intro working n
    rw [saveManyGoE, hnf c]
    rcases hins : insertIgnoreE working c with ⟨w, b⟩
    obtain ⟨st', n', hok⟩ := ih w (n + if b then 1 else 0)
    exact ⟨st', n', hok⟩

/-- Per-source batch loop under the truncating fake provider: resolves,
and its provider-call log has exactly one size-one call per word. -/
theorem runBatches_fake (enr : List String → Except String (List Card))
    (efail : ERow → Option String) (now : Nat)
    (h1 : ∀ ws, 1 < ws.length →
      ∃ m, enr ws = .error m ∧ tokenLimitHit m = true)
    (h2 : ∀ w, ∃ cs, enr [w] = .ok cs) (hnf : ∀ r, efail r = none) :
    ∀ (batches : List (List String)), (∀ b ∈ batches, b ≠ []) →
      ∀ (st : List ERow) (created : Nat) (log : List Nat),
      ∃ st' created' L,
        runBatches enr efail now st created log batches =
          (.ok (st', created'), log ++ L) ∧
        L.count 1 = (batches.map List.length).sum := by
  intro batches
  induction batches with
  | nil =>
    intro _ st created log
    exact ⟨st, created, [], by simp [runBatches], by simp⟩
  | cons b bs ih =>
    intro hb st created log
    obtain ⟨cs, l, hbk, hc⟩ := backoff_fake enr h1 h2 b (hb b (by simp))
    obtain ⟨st1, ins, hsv⟩ :=
      saveManyGoE_ok_of_noFail efail hnf (cs.map (rowOfCard now)) st 0
    obtain ⟨st', created', L', hrec, hcL'⟩ :=
      ih (fun x hx => hb x (by simp [hx])) st1 (created + ins) (log ++ l)
    refine ⟨st', created', l ++ L', ?_, ?_⟩
    · rw [runBatches, hbk]
      simp only
      rw [hsv]
      simp only
      rw [hrec, List.append_assoc]
    · rw [List.count_append, hc, hcL']
      simp

/-- The per-source loop under the truncating fake provider. -/
theorem runSources_fake
    (enrich : List String → String → Except String (List Card))
    (efail : ERow → Option String) (batchSize now : Nat) (hbs : 0 < batchSize)
    (htrunc : ∀ ws s, 1 < ws.length →
      ∃ m, enrich ws s = .error m ∧ tokenLimitHit m = true)
    (hsingle : ∀ w s, ∃ cs, enrich [w] s = .ok cs)
    (hnf : ∀ r, efail r = none) :
    ∀ (srcs : List (String × List String)) (st : List ERow)
      (req cr : Nat) (log : List Nat),
      ∃ st' reqD crD L,
        runSources enrich efail batchSize now st req cr log srcs =
          (.ok (st', req + reqD, cr + crD), log ++ L) ∧
        L.count 1 = reqD := by
  intro srcs
  induction srcs with
  | nil =>
    intro st req cr log
    exact ⟨st, 0, 0, [], by simp [runSources], by simp⟩
  | cons p rest ih =>
    rcases p with ⟨s, words⟩
    intro st req cr log
    by_cases hmiss :
        (words.filter (fun w => !(existsKeyE st w s))).isEmpty
    · obtain ⟨st', reqD, crD, L, hrec, hcnt⟩ := ih st req cr log
      refine ⟨st', reqD, crD, L, ?_, hcnt⟩
      rw [runSources]
      simp only [hmiss, if_true]
      exact hrec
    · rw [Bool.not_eq_true] at hmiss
      have hKs := chunksGo_ne_nil batchSize hbs
        (words.filter (fun w => !(existsKeyE st w s))).length
        (words.filter (fun w => !(existsKeyE st w s)))
      obtain ⟨st1, cr1, LB, hRB, hLB⟩ :=
        runBatches_fake (fun ws => enrich ws s) efail now
          (fun ws hws => htrunc ws s hws) (fun w => hsingle w s) hnf
          (chunks batchSize (words.filter (fun w => !(existsKeyE st w s))))
          hKs st 0 log
      obtain ⟨st', reqD', crD', L', hrec, hcnt⟩ :=
        ih st1 (req + (words.filter (fun w => !(existsKeyE st w s))).length)
          (cr + cr1) (log ++ LB)
      refine ⟨st',
        (words.filter (fun w => !(existsKeyE st w s))).length + reqD',
        cr1 + crD', LB ++ L', ?_, ?_⟩
      · rw [runSources]
        simp only [hmiss, Bool.false_eq_true, if_false]
        rw [hRB]
        simp only
        rw [hrec, List.append_assoc, Nat.add_assoc, Nat.add_assoc]
      · have hsum : ((chunks batchSize
            (words.filter (fun w => !(existsKeyE st w s)))).map
              List.length).sum =
            (words.filter (fun w => !(existsKeyE st w s))).length := by
          rw [← List.length_flatten, chunks_flatten]
        rw [List.count_append, hLB, hcnt, hsum]

/-- Claim C1: with a provider that signals the token-limit truncation for
every batch of more than one word and succeeds on every single-word batch
(and no storage failure, with the validated batch size ≥ 1),
`executeForEntries` terminates — it is a total Lean function — resolves
successfully, and its provider-call log contains exactly `requested`-many
size-one calls, `requested` being the missing-word count M the run
determines. -/
theorem executeForEntries_truncation_to_singles
    (enrich : List String → String → Except String (List Card))
    (efail : ERow → Option String) (batchSize now : Nat) (st0 : List ERow)
    (entries : List DigestEntryS) (hbs : 0 < batchSize)
    (htrunc : ∀ ws s, 1 < ws.length →
      ∃ m, enrich ws s = .error m ∧ tokenLimitHit m = true)
    (hsingle : ∀ w s, ∃ cs, enrich [w] s = .ok cs)
    (hnf : ∀ r, efail r = none) :
    ∃ st' requested created log,
      executeForEntries enrich efail batchSize now st0 entries =
        (.ok (st', requested, created), log) ∧
      log.count 1 = requested := by
  obtain ⟨st', reqD, crD, L, hrun, hcnt⟩ :=
    runSources_fake enrich efail batchSize now hbs htrunc hsingle hnf
      (groupBySource entries) st0 0 0 []
  refine ⟨st', reqD, crD, L, ?_, ?_⟩
  · rw [executeForEntries, hrun]
    simp
  · exact hcnt

/-- Witness for claim C1: three words over two sources with batch size 2;
the call log `[2, 1, 1, 1]` holds exactly 3 = M single-word calls. -/
theorem executeForEntries_truncation_witness :
    ∃ st' requested created log,
      executeForEntries
        (fun ws _ => if ws.length == 1 then
            Except.ok (ws.map (fun w =>
              (⟨w, "A", none, "n", "D", "E", "s", "H"⟩ : Card)))
          else Except.error "batch hit max output tokens")
        (fun _ => none) 2 0 []
        [⟨"a", "s"⟩, ⟨"b", "s"⟩, ⟨"c", "t"⟩] =
        (.ok (st', requested, created), log) ∧
      log.count 1 = requested := by
  apply executeForEntries_truncation_to_singles
  · decide
  · intro ws s h
    refine ⟨"batch hit max output tokens", ?_, by decide⟩
    have : (ws.length == 1) = false := by
      rw [beq_eq_false_iff_ne]
      omega
    rw [this]
    simp
  · intro w s
    exact ⟨[⟨w, "A", none, "n", "D", "E", "s", "H"⟩], by simp⟩
  · intro r
    rfl

/-- Claim C2 (counterexample): with a provider that reports truncation for
the 3-word batch and succeeds on anything smaller, the two sub-calls have
sizes 1 and then 2 — `mid = Math.floor(3 / 2) = 1`, and `slice(0, mid)` is
retried first — not 2 and then 1 as the claim's ceil-first order states. -/
theorem backoff_split_order_counterexample :
    (enrichWithBackoff
      (fun ws => if ws.length == 3 then Except.error "max output tokens exceeded"
        else Except.ok (ws.map (fun w =>
          (⟨w, "A", none, "n", "D", "E", "s", "H"⟩ : Card))))
      ["a", "b", "c"]).2 = [3, 1, 2] ∧ ([3, 1, 2] : List Nat) ≠ [3, 2, 1] := by
  exact ⟨by decide, by decide⟩

/-- Claim C2 (amended): on truncation the batch is split at the floor
midpoint with the floor-sized half retried first and the ceil-sized half
second; a 3-word batch with one truncation yields sub-calls of size 1 and
then 2, and the persisted word count (3) equals what a single successful
call of size 3 produces; a non-truncation error from a sub-batch
propagates and aborts the whole call, before any further sub-batch is
attempted. -/
theorem backoff_split_floor_first :
    ((executeForEntries
        (fun ws _ => if ws.length == 3 then
            Except.error "max output tokens exceeded"
          else Except.ok (ws.map (fun w =>
            (⟨w, "A", none, "n", "D", "E", "s", "H"⟩ : Card))))
        (fun _ => none) 20 0 []
        [⟨"a", "s"⟩, ⟨"b", "s"⟩, ⟨"c", "s"⟩]).2 = [3, 1, 2] ∧
      reqCreatedOf (executeForEntries
        (fun ws _ => if ws.length == 3 then
            Except.error "max output tokens exceeded"
          else Except.ok (ws.map (fun w =>
            (⟨w, "A", none, "n", "D", "E", "s", "H"⟩ : Card))))
        (fun _ => none) 20 0 []
        [⟨"a", "s"⟩, ⟨"b", "s"⟩, ⟨"c", "s"⟩]) = some (3, 3) ∧
      reqCreatedOf (executeForEntries
        (fun ws _ => Except.ok (ws.map (fun w =>
            (⟨w, "A", none, "n", "D", "E", "s", "H"⟩ : Card))))
        (fun _ => none) 20 0 []
        [⟨"a", "s"⟩, ⟨"b", "s"⟩, ⟨"c", "s"⟩]) = some (3, 3)) ∧
    enrichWithBackoff
      (fun ws => if ws.length == 3 then
          Except.error "max output tokens exceeded"
        else if ws == ["a"] then Except.error "quota exceeded"
        else Except.ok (ws.map (fun w =>
          (⟨w, "A", none, "n", "D", "E", "s", "H"⟩ : Card))))
      ["a", "b", "c"] = (Except.error "quota exceeded", [3, 1]) := by
  refine ⟨⟨by decide, by decide, by decide⟩, rfl⟩

/-- Claim C8 (counterexample): running `pushForSources` twice with no
intervening local change issues no `updateNoteFields` call on the second
run, yet the second run reports `updated = 1`, not zero: the matched card
is still counted as updated even though its field update was skipped. -/
theorem push_second_run_counts_updated :
    pushResOf (pushForSources
      ⟨true, "P", "M", "F1", "F2", "F3", "F4", "F5", "F6", "F7", "F8"⟩
      (fun _ => none)
      [⟨"w", "s", "ca", some "al", "n", "df", "ex", "hi", 0, 0⟩]
      ["s"] ⟨[], [], 1, 0⟩) = some ⟨1, 0⟩ ∧
    pushResOf (pushForSources
      ⟨true, "P", "M", "F1", "F2", "F3", "F4", "F5", "F6", "F7", "F8"⟩
      (fun _ => none)
      [⟨"w", "s", "ca", some "al", "n", "df", "ex", "hi", 0, 0⟩]
      ["s"]
      (pushStateOf (pushForSources
        ⟨true, "P", "M", "F1", "F2", "F3", "F4", "F5", "F6", "F7", "F8"⟩
        (fun _ => none)
        [⟨"w", "s", "ca", some "al", "n", "df", "ex", "hi", 0, 0⟩]
        ["s"] ⟨[], [], 1, 0⟩) ⟨[], [], 1, 0⟩)) = some ⟨0, 1⟩ ∧
    some (⟨0, 1⟩ : PushRes) ≠ some ⟨0, 0⟩ ∧
    ((pushLogOf (pushForSources
      ⟨true, "P", "M", "F1", "F2", "F3", "F4", "F5", "F6", "F7", "F8"⟩
      (fun _ => none)
      [⟨"w", "s", "ca", some "al", "n", "df", "ex", "hi", 0, 0⟩]
      ["s"]
      (pushStateOf (pushForSources
        ⟨true, "P", "M", "F1", "F2", "F3", "F4", "F5", "F6", "F7", "F8"⟩
        (fun _ => none)
        [⟨"w", "s", "ca", some "al", "n", "df", "ex", "hi", 0, 0⟩]
        ["s"] ⟨[], [], 1, 0⟩) ⟨[], [], 1, 0⟩))).filter isUpdateFieldsAct) = [] ∧
    ((pushLogOf (pushForSources
      ⟨true, "P", "M", "F1", "F2", "F3", "F4", "F5", "F6", "F7", "F8"⟩
      (fun _ => none)
      [⟨"w", "s", "ca", some "al", "n", "df", "ex", "hi", 0, 0⟩]
      ["s"]
      (pushStateOf (pushForSources
        ⟨true, "P", "M", "F1", "F2", "F3", "F4", "F5", "F6", "F7", "F8"⟩
        (fun _ => none)
        [⟨"w", "s", "ca", some "al", "n", "df", "ex", "hi", 0, 0⟩]
        ["s"] ⟨[], [], 1, 0⟩) ⟨[], [], 1, 0⟩))).filter isUpdateTagsAct).length
      = 1 := by
  refine ⟨by decide, by decide, by decide, by decide, by decide⟩

/-- Claim C8 (amended): for every card whose remote lookup yields exactly
one usable matching note whose current field values already equal the
desired values, the `updateNoteFields` call is skipped, the tag union is
still submitted, and the card IS counted as updated: the per-card step
appends only the search, fetch and tag actions and increments `updated`.
Hence a second run with no intervening local changes reports `updated`
equal to the number of matched cards, not zero, while issuing no field
updates. -/
theorem pushRows_equal_fields_counts_updated (cfg : AnkiCfg)
    (deckName sourceTitle : String) (st : AnkiState) (log : List AAct)
    (created updated : Nat) (row : ERow) (nt : Note)
    (hfront : jsTrimS row.word ≠ "")
    (hfind : findNotesSem cfg st deckName (jsTrimS row.word) = [nt.noteId])
    (hinfo : notesInfoSem st [nt.noteId] = [nt])
    (hid : nt.noteId ≠ 0)
    (heq : ∀ kv ∈ desiredFields cfg sourceTitle (jsTrimS row.word) row,
      (lookupField nt.fields kv.1).getD "" = kv.2) :
    pushRows cfg (fun _ => none) deckName sourceTitle st log created updated
        [row] =
      .ok (updateTagsSem st nt.noteId
            (dedupGo [] (nt.tags ++ newNoteTags sourceTitle)),
          log ++ [AAct.findNotes deckName cfg.model (jsTrimS row.word),
            AAct.notesInfo [nt.noteId],
            AAct.updateNoteTags nt.noteId
              (dedupGo [] (nt.tags ++ newNoteTags sourceTitle))],
          created, updated + 1) := by
  have hfront' : (jsTrimS row.word == "") = false :=
    beq_eq_false_iff_ne.mpr hfront
  have hid' : (nt.noteId == 0) = false := beq_eq_false_iff_ne.mpr hid
  have hdiff : diffFields (desiredFields cfg sourceTitle (jsTrimS row.word) row)
      nt.fields = [] := by
    rw [diffFields, List.filter_eq_nil_iff]
    intro kv hkv
    rw [heq kv hkv]
    simp
  simp only [pushRows, hfront', Bool.false_eq_true, if_false, hfind,
    List.isEmpty_cons, hinfo, sortByModDesc, insertByMod, hid', hdiff,
    List.isEmpty_nil, if_true]
  simp [List.append_assoc]

/-- Witness for claim C8 (amended) on a concrete matching note with equal
fields. -/
theorem pushRows_equal_fields_witness :
    pushRows ⟨true, "P", "M", "F1", "F2", "F3", "F4", "F5", "F6", "F7", "F8"⟩
        (fun _ => none) "D" "s"
        ⟨[], [⟨5, "D", "M",
          [("F1", "w"), ("F2", "ca"), ("F3", "al"), ("F4", "n"), ("F5", "df"),
           ("F6", "ex"), ("F7", "s"), ("F8", "hi")], ["t"], 2⟩], 9, 3⟩
        [] 0 0 [⟨"w", "s", "ca", some "al", "n", "df", "ex", "hi", 0, 0⟩] =
      .ok (updateTagsSem
            ⟨[], [⟨5, "D", "M",
              [("F1", "w"), ("F2", "ca"), ("F3", "al"), ("F4", "n"),
               ("F5", "df"), ("F6", "ex"), ("F7", "s"), ("F8", "hi")],
              ["t"], 2⟩], 9, 3⟩ 5
            (dedupGo [] (["t"] ++ newNoteTags "s")),
          [] ++ [AAct.findNotes "D" "M" (jsTrimS "w"),
            AAct.notesInfo [5],
            AAct.updateNoteTags 5 (dedupGo [] (["t"] ++ newNoteTags "s"))],
          0, 0 + 1) :=
  pushRows_equal_fields_counts_updated
    ⟨true, "P", "M", "F1", "F2", "F3", "F4", "F5", "F6", "F7", "F8"⟩
    "D" "s"
    ⟨[], [⟨5, "D", "M",
      [("F1", "w"), ("F2", "ca"), ("F3", "al"), ("F4", "n"), ("F5", "df"),
       ("F6", "ex"), ("F7", "s"), ("F8", "hi")], ["t"], 2⟩], 9, 3⟩
    [] 0 0 ⟨"w", "s", "ca", some "al", "n", "df", "ex", "hi", 0, 0⟩
    ⟨5, "D", "M",
      [("F1", "w"), ("F2", "ca"), ("F3", "al"), ("F4", "n"), ("F5", "df"),
       ("F6", "ex"), ("F7", "s"), ("F8", "hi")], ["t"], 2⟩
    (by decide) (by decide) (by decide) (by decide) (by decide)

/-- Claim C9 (counterexample): when the per-card remote search
(`findNotes`) fails, the failure is caught but the card is NOT skipped:
`noteIds` stays empty and control falls through to `addNote`, so a remote
write is attempted and the card is counted as created. -/
theorem push_search_failure_creates :
    pushResOf (pushForSources
      ⟨true, "P", "M", "F1", "F2", "F3", "F4", "F5", "F6", "F7", "F8"⟩
      (fun a => match a with
        | AAct.findNotes _ _ _ => some "net down"
        | _ => none)
      [⟨"w", "s", "ca", some "al", "n", "df", "ex", "hi", 0, 0⟩]
      ["s"] ⟨[], [], 1, 0⟩) = some ⟨1, 0⟩ ∧
    ((pushLogOf (pushForSources
      ⟨true, "P", "M", "F1", "F2", "F3", "F4", "F5", "F6", "F7", "F8"⟩
      (fun a => match a with
        | AAct.findNotes _ _ _ => some "net down"
        | _ => none)
      [⟨"w", "s", "ca", some "al", "n", "df", "ex", "hi", 0, 0⟩]
      ["s"] ⟨[], [], 1, 0⟩)).filter isAddNoteAct).length = 1 ∧
    some (⟨1, 0⟩ : PushRes) ≠ some ⟨0, 0⟩ := by
  refine ⟨by decide, by decide, by decide⟩

/-- Claim C9 (amended): a failure of the per-card fetch of note details
(`notesInfo`) is caught and that card is skipped — counted as neither
created nor updated, with no write action issued for it; a failure of the
per-card search (`findNotes`) is caught but treated as "no matching
notes", so the run falls through to `addNote` (a remote write) and may
count the card as created; failures of the per-card `addNote`,
`updateNoteFields` or `updateNoteTags` calls propagate as hard errors
aborting the run. -/
theorem push_failure_asymmetry :
    (pushResOf (pushForSources
      ⟨true, "P", "M", "F1", "F2", "F3", "F4", "F5", "F6", "F7", "F8"⟩
      (fun a => match a with
        | AAct.notesInfo _ => some "net down"
        | _ => none)
      [⟨"w", "s", "ca", some "al", "n", "df", "ex", "hi", 0, 0⟩]
      ["s"]
      ⟨["P::s"], [⟨5, "P::s", "M", [("F1", "w")], [], 2⟩], 9, 3⟩) =
        some ⟨0, 0⟩ ∧
      ((pushLogOf (pushForSources
        ⟨true, "P", "M", "F1", "F2", "F3", "F4", "F5", "F6", "F7", "F8"⟩
        (fun a => match a with
          | AAct.notesInfo _ => some "net down"
          | _ => none)
        [⟨"w", "s", "ca", some "al", "n", "df", "ex", "hi", 0, 0⟩]
        ["s"]
        ⟨["P::s"], [⟨5, "P::s", "M", [("F1", "w")], [], 2⟩], 9, 3⟩)).filter
          (fun a => isAddNoteAct a || isUpdateFieldsAct a ||
            isUpdateTagsAct a)) = [] ∧
      pushStateOf (pushForSources
        ⟨true, "P", "M", "F1", "F2", "F3", "F4", "F5", "F6", "F7", "F8"⟩
        (fun a => match a with
          | AAct.notesInfo _ => some "net down"
          | _ => none)
        [⟨"w", "s", "ca", some "al", "n", "df", "ex", "hi", 0, 0⟩]
        ["s"]
        ⟨["P::s"], [⟨5, "P::s", "M", [("F1", "w")], [], 2⟩], 9, 3⟩)
        ⟨[], [], 0, 0⟩ =
        ⟨["P::s"], [⟨5, "P::s", "M", [("F1", "w")], [], 2⟩], 9, 3⟩) ∧
    (pushResOf (pushForSources
      ⟨true, "P", "M", "F1", "F2", "F3", "F4", "F5", "F6", "F7", "F8"⟩
      (fun a => match a with
        | AAct.findNotes _ _ _ => some "net down"
        | _ => none)
      [⟨"w", "s", "ca", some "al", "n", "df", "ex", "hi", 0, 0⟩]
      ["s"] ⟨[], [], 1, 0⟩) = some ⟨1, 0⟩) ∧
    (pushErred (pushForSources
      ⟨true, "P", "M", "F1", "F2", "F3", "F4", "F5", "F6", "F7", "F8"⟩
      (fun a => match a with
        | AAct.addNote _ _ _ => some "add refused"
        | _ => none)
      [⟨"w", "s", "ca", some "al", "n", "df", "ex", "hi", 0, 0⟩]
      ["s"] ⟨[], [], 1, 0⟩) = true) ∧
    (pushErred (pushForSources
      ⟨true, "P", "M", "F1", "F2", "F3", "F4", "F5", "F6", "F7", "F8"⟩
      (fun a => match a with
        | AAct.updateNoteFields _ _ => some "update refused"
        | _ => none)
      [⟨"w", "s", "ca", some "al", "n", "df", "ex", "hi", 0, 0⟩]
      ["s"]
      ⟨["P::s"], [⟨5, "P::s", "M", [("F1", "w"), ("F2", "old")], [], 2⟩],
        9, 3⟩) = true) ∧
    (pushErred (pushForSources
      ⟨true, "P", "M", "F1", "F2", "F3", "F4", "F5", "F6", "F7", "F8"⟩
      (fun a => match a with
        | AAct.updateNoteTags _ _ => some "tags refused"
        | _ => none)
      [⟨"w", "s", "ca", some "al", "n", "df", "ex", "hi", 0, 0⟩]
      ["s"]
      ⟨["P::s"], [⟨5, "P::s", "M", [("F1", "w"), ("F2", "old")], [], 2⟩],
        9, 3⟩) = true) := by
  refine ⟨⟨by decide, by decide, by decide⟩, by decide, by decide,
    by decide, by decide⟩

end SuperAnki
